import Mathlib

/-!
# Hillview histogram micro-benchmark: embedding and verification

Shallow embedding of `src/cpp/histogram.hpp`, `src/cpp/data.hpp` and `src/cpp/main.cpp`.

The program is embedded in two layers.

* The exact layer (`Hillview.Histogram`, `Hillview.DoubleColumn`, `Hillview.main`).
  A C++ `double` is an exact rational number (`ℚ`) and a C++ `int` is a mathematical
  integer (`Int`).  It carries the properties in which no operation of the program
  rounds and no counter reaches 2^31: the run of `main` (values 0..99, 40 buckets,
  counters bounded in the theorem itself), `add(max)` on `Histogram(4, 0, 100)` and
  `Histogram(40, 0, 100)`, the traversal order of `histogram`, the output of `print`,
  and the independence of the order of the values.  A quotient whose divisor is zero
  has no value in this layer and is reported as `Failure.nonFiniteCast`; it does not
  occur in a valid state.
* The machine layer (`Hillview.Machine.Histogram`, `Hillview.Machine.DoubleColumn`).
  A `double` is a binary64 value (`Double`: a rational, an infinity or NaN); every
  arithmetic operation on doubles rounds its exact result to the nearest double, ties
  to even, and overflows to an infinity (`round64`); comparisons with NaN are false;
  the conversion `(int)x` truncates toward zero (`Double.toInt32`); `++` on an `int`
  counter wraps around modulo 2^32 (`incr32`).  It carries every property that
  quantifies over arbitrary values, bounds or numbers of calls.

Conventions of both layers.
* A method that mutates `*this` is a function from the old state to the new state.
  A run that aborts (failed `assert`, integer modulus by zero, access outside an
  allocation) returns `Except.error` with the reason.
* A counted loop `for (int i = 0; i < n; i++) body` is `forLoop n body`.
* `Valid` is the representation invariant that a constructor establishes and every
  method preserves; "a validly constructed object" is a state satisfying it.
* An output stream is the sequence of items written to it with `<<` (`Output`); number
  formatting is not represented.
* The duration measured by `main` is a parameter of `reportedThroughput`.
-/

namespace Hillview

/-! ## Definitions -/

/-- Reasons for which a run aborts. -/
inductive Failure where
  /-- Line 19 of histogram.hpp: `assert(bucketCount > 0)`. -/
  | assertBucketCountPos
  /-- Line 20 of histogram.hpp: `assert(max >= min)`. -/
  | assertMaxGeMin
  /-- Line 21 of histogram.hpp: `assert(range >= 0)`. -/
  | assertRangeNonneg
  /-- Line 23 of histogram.hpp: `assert(bucketCount == 1)`. -/
  | assertSingleBucket
  /-- Line 39 of histogram.hpp: `assert(bucketIndex >= 0)`. -/
  | assertIndexNonneg
  /-- Line 40 of histogram.hpp: `assert(bucketIndex < this->bucketCount)`. -/
  | assertIndexLtCount
  /-- Line 12 of data.hpp: `assert(size > 0)`. -/
  | assertSizePos
  /-- Conversion to `int` of a quotient whose divisor is zero. -/
  | nonFiniteCast
  /-- Integer `%` with a zero right operand. -/
  | modByZero
  /-- Array access outside the allocated elements. -/
  | badIndex
  deriving DecidableEq

/-- The conversion `(int)x` of a `double` to `int`: truncation toward zero. -/
def doubleToInt (x : ℚ) : Int :=
  x.num.tdiv x.den

/-- The loop `for (int i = 0; i < n; i++) s = body(i, s)`, stopping at the first abort. -/
def forLoop {σ : Type} (n : Nat) (body : Nat → σ → Except Failure σ) (s : σ) :
    Except Failure σ :=
  (List.range n).foldlM (fun acc i => body i acc) s

/-- The fields of `class Histogram`, in declaration order. -/
structure Histogram where
  buckets : List Int
  bucketCount : Int
  min : ℚ
  max : ℚ
  range : ℚ
  outOfBounds : Int
  missing : Int
  deriving DecidableEq

namespace Histogram

/-- The constructor `Histogram::Histogram(int bucketCount, double min, double max)`. -/
def new (bucketCount : Int) (min max : ℚ) : Except Failure Histogram :=
  let range := max - min
  if ¬ (bucketCount > 0) then .error .assertBucketCountPos
  else if ¬ (max ≥ min) then .error .assertMaxGeMin
  else if ¬ (range ≥ 0) then .error .assertRangeNonneg
  else if max = min ∧ ¬ (bucketCount = 1) then .error .assertSingleBucket
  else .ok
    { buckets := List.replicate bucketCount.toNat 0
      bucketCount := bucketCount
      min := min
      max := max
      range := range
      outOfBounds := 0
      missing := 0 }

/-- The value assigned to the local `bucketIndex` in `Histogram::add` (lines 35-38). -/
def bucketIndex (h : Histogram) (value : ℚ) : Except Failure Int :=
  if h.range ≤ 0 then .ok 0
  else if h.max - h.min = 0 then .error .nonFiniteCast
  else .ok (doubleToInt (h.bucketCount * (value - h.min) / (h.max - h.min)))

/-- The method `Histogram::add(double value)`. -/
def add (h : Histogram) (value : ℚ) : Except Failure Histogram :=
  if value < h.min ∨ value > h.max then
    .ok { h with outOfBounds := h.outOfBounds + 1 }
  else
    match h.bucketIndex value with
    | .error e => .error e
    | .ok bucketIndex =>
      if ¬ (bucketIndex ≥ 0) then .error .assertIndexNonneg
      else if ¬ (bucketIndex < h.bucketCount) then .error .assertIndexLtCount
      else
        match h.buckets[bucketIndex.toNat]? with
        | none => .error .badIndex
        | some count => .ok { h with buckets := h.buckets.set bucketIndex.toNat (count + 1) }

/-- The method `Histogram::addMissing()`. -/
def addMissing (h : Histogram) : Histogram :=
  { h with missing := h.missing + 1 }

/-- The number of values accounted for: all bucket counts, out-of-range and missing. -/
def total (h : Histogram) : Int :=
  h.buckets.sum + h.outOfBounds + h.missing

/-- The representation invariant established by the constructor: the parameters passed
the constructor's assertions, `range` caches `max - min`, and `buckets` has exactly
`bucketCount` entries. -/
def Valid (h : Histogram) : Prop :=
  0 < h.bucketCount ∧ h.min ≤ h.max ∧ h.range = h.max - h.min ∧
    (h.max = h.min → h.bucketCount = 1) ∧ (h.buckets.length : Int) = h.bucketCount

instance (h : Histogram) : Decidable h.Valid := by
  unfold Valid; infer_instance

/-- The state `Histogram(4, 0, 100)` right after construction. -/
def fresh4 : Histogram :=
  { buckets := [0, 0, 0, 0], bucketCount := 4, min := 0, max := 100, range := 100,
    outOfBounds := 0, missing := 0 }

end Histogram

/-- The fields of `class DoubleColumn`, in declaration order. -/
structure DoubleColumn where
  size : Int
  data : List ℚ
  deriving DecidableEq

namespace DoubleColumn

/-- The constructor `DoubleColumn::DoubleColumn(int size)`.  `new double[size]` does not
initialise the elements; `initial i` is whatever element `i` holds after allocation. -/
def new (size : Int) (initial : Nat → ℚ) : Except Failure DoubleColumn :=
  if ¬ (size > 0) then .error .assertSizePos
  else .ok { size := size, data := (List.range size.toNat).map initial }

/-- The body of the loop in `fillRandom`:
`this->data[i] = min + i % (int)(max - min)`. -/
def fillRandomStep (min max : ℚ) (i : Nat) (col : DoubleColumn) :
    Except Failure DoubleColumn :=
  if doubleToInt (max - min) = 0 then .error .modByZero
  else if i < col.data.length then
    .ok { col with
      data := col.data.set i (min + (((i : Int).tmod (doubleToInt (max - min)) : Int) : ℚ)) }
  else .error .badIndex

/-- The method `DoubleColumn::fillRandom(double min, double max)`. -/
def fillRandom (c : DoubleColumn) (min max : ℚ) : Except Failure DoubleColumn :=
  forLoop c.size.toNat (fillRandomStep min max) c

/-- The body of the loop in `histogram`: `histo->add(this->data[i])`. -/
def histogramStep (c : DoubleColumn) (i : Nat) (histo : Histogram) :
    Except Failure Histogram :=
  match c.data[i]? with
  | none => .error .badIndex
  | some value => histo.add value

/-- The method `DoubleColumn::histogram(Histogram* histo)`; the result is the new state
of `*histo`. -/
def histogram (c : DoubleColumn) (histo : Histogram) : Except Failure Histogram :=
  forLoop c.size.toNat (histogramStep c) histo

/-- The representation invariant established by the constructor: a positive `size` and
exactly `size` allocated elements. -/
def Valid (c : DoubleColumn) : Prop :=
  0 < c.size ∧ (c.data.length : Int) = c.size

instance (c : DoubleColumn) : Decidable c.Valid := by
  unfold Valid; infer_instance

/-- A column of length 3 whose elements still hold arbitrary allocation contents. -/
def sample3 : DoubleColumn :=
  { size := 3, data := [7, -2, 7] }

end DoubleColumn

/-- One item written to an output stream with `<<`. -/
inductive Output where
  | text (s : String)
  | number (n : Int)
  | endl
  deriving DecidableEq

namespace Histogram

/-- The body of the loop in `print`:
`out << "[" << i << "]=" << this->buckets[i] << " "`. -/
def printStep (h : Histogram) (i : Nat) (out : List Output) : Except Failure (List Output) :=
  match h.buckets[i]? with
  | none => .error .badIndex
  | some count =>
    .ok (out ++ [.text "[", .number i, .text "]=", .number count, .text " "])

/-- The method `Histogram::print(std::ostream& out) const`; `out` is the sequence of
items written to the stream so far and the result is the sequence afterwards. -/
def print (h : Histogram) (out : List Output) : Except Failure (List Output) :=
  match forLoop h.bucketCount.toNat h.printStep out with
  | .error e => .error e
  | .ok written => .ok (written ++ [.endl])

/-- The rendering in the specification's words: the pair (index, count) for every
bucket in order, the first bucket having index `i`. -/
def renderPairs : Nat → List Int → List Output
  | _, [] => []
  | i, count :: rest =>
    [.text "[", .number i, .text "]=", .number count, .text " "] ++ renderPairs (i + 1) rest

end Histogram

/-- The constant `const int dataSize = 100;  // in mega` of `main`. -/
def dataSize : Int := 100

/-- The constant `const int mega = 1024 * 1024;` of `main`. -/
def mega : Int := 1024 * 1024

/-- The number of passes of the timed loop `for (int i = 0; i < 100; i++)` of `main`. -/
def passes : Nat := 100

/-- The number of elements that the timed loop of `main` feeds to `add`: `passes`
traversals of a column of `dataSize * mega` elements. -/
def elementsProcessed : Int :=
  (passes : Int) * (dataSize * mega)

/-- The throughput figure that `main` prints for a measured `duration` in microseconds:
`((double)dataSize * mega) / (double)duration`. -/
def reportedThroughput (duration : Int) : ℚ :=
  ((dataSize : ℚ) * (mega : ℚ)) / (duration : ℚ)

/-- The histogram state at the end of `main`: the column is allocated, filled with
`fillRandom(0, 100)` and binned `passes` times into `Histogram(40, 0, 100)`. -/
def main (initial : Nat → ℚ) : Except Failure Histogram :=
  (DoubleColumn.new (dataSize * mega) initial).bind fun data =>
    (data.fillRandom 0 100).bind fun filled =>
      (Histogram.new 40 0 100).bind fun histo =>
        forLoop passes (fun _ h => filled.histogram h) histo

namespace Histogram

/-- Whether `add(value)` takes the branch of line 31 that counts the value as out of
range. -/
def isOutOfBounds (h : Histogram) (value : ℚ) : Bool :=
  decide (value < h.min ∨ value > h.max)

end Histogram

/-! ### The machine model

The definitions above compute with exact rationals and unbounded integers.  The
definitions of this section follow the program as it runs: a `double` is a binary64
value and every operation on doubles rounds; an `int` counter is incremented modulo
2^32. -/

/-- The value held by a 32-bit signed `int` after storing the integer `x`
(two's-complement wrap-around). -/
def wrapInt32 (x : Int) : Int :=
  (x + 2147483648) % 4294967296 - 2147483648

/-- The increment `x++` of a 32-bit signed `int`. -/
def incr32 (x : Int) : Int :=
  wrapInt32 (x + 1)

/-- The values of a 32-bit signed `int`. -/
def isInt32 (x : Int) : Prop :=
  -2147483648 ≤ x ∧ x ≤ 2147483647

instance (x : Int) : Decidable (isInt32 x) := by
  unfold isInt32; infer_instance

/-- A binary64 value: a number, an infinity or NaN.  The two zeros are not
distinguished. -/
inductive Double where
  | finite (x : ℚ)
  | posInf
  | negInf
  | nan
  deriving DecidableEq

/-- The integer nearest to `x`, the even one when two are equally near. -/
def roundHalfEven (x : ℚ) : Int :=
  if x - ⌊x⌋ < 1 / 2 then ⌊x⌋
  else if 1 / 2 < x - ⌊x⌋ then ⌊x⌋ + 1
  else if ⌊x⌋ % 2 = 0 then ⌊x⌋ else ⌊x⌋ + 1

/-- Bisection for the binary exponent: for `2^lo <= q < 2^(lo + 2^k)`, the `e` with
`2^e <= q < 2^(e+1)`. -/
def binadeSearch (q : ℚ) : Nat → Int → Int
  | 0, lo => lo
  | k + 1, lo =>
    if (2 : ℚ) ^ (lo + 2 ^ k) ≤ q then binadeSearch q k (lo + 2 ^ k) else binadeSearch q k lo

/-- The binary exponent of a non-zero rational `q`: the `e` with
`2^e <= |q| < 2^(e+1)`, kept within `-2048 <= e < 2048` (an exponent outside
`-1074 .. 1024` makes no difference to a binary64 result). -/
def binade (q : ℚ) : Int :=
  binadeSearch |q| 12 (-2048)

/-- The binary64 value of the exact result `q` of an operation: round to nearest, ties
to even, with 53 significant bits, exponents from -1022 (below that the spacing stays
2^-1074) and overflow to infinity from 2^1024. -/
def round64 (q : ℚ) : Double :=
  if q = 0 then .finite 0
  else if |(roundHalfEven (q / 2 ^ (max (binade q) (-1022) - 52)) : ℚ) *
      2 ^ (max (binade q) (-1022) - 52)| < 2 ^ (1024 : Int) then
    .finite ((roundHalfEven (q / 2 ^ (max (binade q) (-1022) - 52)) : ℚ) *
      2 ^ (max (binade q) (-1022) - 52))
  else if 0 < q then .posInf
  else .negInf

namespace Double

/-- The comparison `a < b`: false as soon as one operand is NaN. -/
def lt : Double → Double → Bool
  | .finite a, .finite b => decide (a < b)
  | .finite _, .posInf => true
  | .negInf, .finite _ => true
  | .negInf, .posInf => true
  | _, _ => false

/-- The comparison `a > b`: false as soon as one operand is NaN. -/
def gt (a b : Double) : Bool :=
  lt b a

/-- The comparison `a <= b`: false as soon as one operand is NaN. -/
def le : Double → Double → Bool
  | .finite a, .finite b => decide (a ≤ b)
  | .nan, _ => false
  | _, .nan => false
  | .negInf, _ => true
  | _, .posInf => true
  | _, _ => false

/-- The comparison `a >= b`: false as soon as one operand is NaN. -/
def ge (a b : Double) : Bool :=
  le b a

/-- The comparison `a == b`: false as soon as one operand is NaN. -/
def eq : Double → Double → Bool
  | .finite a, .finite b => decide (a = b)
  | .posInf, .posInf => true
  | .negInf, .negInf => true
  | _, _ => false

/-- The negation `-a`. -/
def neg : Double → Double
  | .finite a => .finite (-a)
  | .posInf => .negInf
  | .negInf => .posInf
  | .nan => .nan

/-- The sum `a + b`. -/
def add : Double → Double → Double
  | .finite a, .finite b => round64 (a + b)
  | .nan, _ => .nan
  | _, .nan => .nan
  | .posInf, .negInf => .nan
  | .negInf, .posInf => .nan
  | .posInf, _ => .posInf
  | _, .posInf => .posInf
  | .negInf, _ => .negInf
  | _, .negInf => .negInf

/-- The difference `a - b`. -/
def sub (a b : Double) : Double :=
  add a (neg b)

/-- The product `a * b`. -/
def mul : Double → Double → Double
  | .finite a, .finite b => round64 (a * b)
  | .nan, _ => .nan
  | _, .nan => .nan
  | .posInf, .finite b => if b = 0 then .nan else if 0 < b then .posInf else .negInf
  | .negInf, .finite b => if b = 0 then .nan else if 0 < b then .negInf else .posInf
  | .finite a, .posInf => if a = 0 then .nan else if 0 < a then .posInf else .negInf
  | .finite a, .negInf => if a = 0 then .nan else if 0 < a then .negInf else .posInf
  | .posInf, .posInf => .posInf
  | .negInf, .negInf => .posInf
  | .posInf, .negInf => .negInf
  | .negInf, .posInf => .negInf

/-- The quotient `a / b`.  A zero divisor counts as `+0`. -/
def div : Double → Double → Double
  | .finite a, .finite b =>
    if b = 0 then (if a = 0 then .nan else if 0 < a then .posInf else .negInf)
    else round64 (a / b)
  | .nan, _ => .nan
  | _, .nan => .nan
  | .finite _, .posInf => .finite 0
  | .finite _, .negInf => .finite 0
  | .posInf, .finite b => if 0 ≤ b then .posInf else .negInf
  | .negInf, .finite b => if 0 ≤ b then .negInf else .posInf
  | .posInf, .posInf => .nan
  | .posInf, .negInf => .nan
  | .negInf, .posInf => .nan
  | .negInf, .negInf => .nan

/-- The conversion of an `int` to `double`. -/
def ofInt (n : Int) : Double :=
  round64 n

/-- The conversion `(int)x`: truncation toward zero.  When the truncated value does not
fit a 32-bit `int`, or `x` is an infinity or NaN, the C++ standard leaves the result
open; the value here is the one the x86-64 conversion instruction delivers, `INT_MIN`. -/
def toInt32 : Double → Int
  | .finite x => if -2147483649 < x ∧ x < 2147483648 then doubleToInt x else -2147483648
  | _ => -2147483648

end Double

deriving instance DecidableEq for Except

namespace Machine

/-- The fields of `class Histogram`, in declaration order. -/
structure Histogram where
  buckets : List Int
  bucketCount : Int
  min : Double
  max : Double
  range : Double
  outOfBounds : Int
  missing : Int
  deriving DecidableEq

namespace Histogram

/-- The constructor `Histogram::Histogram(int bucketCount, double min, double max)`. -/
def new (bucketCount : Int) (min max : Double) : Except Failure Histogram :=
  if ¬ (bucketCount > 0) then .error .assertBucketCountPos
  else if ¬ (max.ge min) then .error .assertMaxGeMin
  else if ¬ ((max.sub min).ge (.finite 0)) then .error .assertRangeNonneg
  else if max.eq min ∧ ¬ (bucketCount = 1) then .error .assertSingleBucket
  else .ok
    { buckets := List.replicate bucketCount.toNat 0
      bucketCount := bucketCount
      min := min
      max := max
      range := max.sub min
      outOfBounds := 0
      missing := 0 }

/-- The value assigned to the local `bucketIndex` in `Histogram::add` (lines 35-38). -/
def bucketIndex (h : Histogram) (value : Double) : Int :=
  if h.range.le (.finite 0) then 0
  else (((Double.ofInt h.bucketCount).mul (value.sub h.min)).div (h.max.sub h.min)).toInt32

/-- Whether `add(value)` takes the branch of line 31 that counts the value as out of
range. -/
def isOutOfBounds (h : Histogram) (value : Double) : Bool :=
  value.lt h.min || value.gt h.max

/-- The method `Histogram::add(double value)`. -/
def add (h : Histogram) (value : Double) : Except Failure Histogram :=
  if h.isOutOfBounds value then
    .ok { h with outOfBounds := incr32 h.outOfBounds }
  else if ¬ (h.bucketIndex value ≥ 0) then .error .assertIndexNonneg
  else if ¬ (h.bucketIndex value < h.bucketCount) then .error .assertIndexLtCount
  else
    match h.buckets[(h.bucketIndex value).toNat]? with
    | none => .error .badIndex
    | some count =>
      .ok { h with buckets := h.buckets.set (h.bucketIndex value).toNat (incr32 count) }

/-- The method `Histogram::addMissing()`. -/
def addMissing (h : Histogram) : Histogram :=
  { h with missing := incr32 h.missing }

/-- The number of values accounted for: all bucket counts, out-of-range and missing. -/
def total (h : Histogram) : Int :=
  h.buckets.sum + h.outOfBounds + h.missing

/-- The representation invariant established by the constructor and kept by every
method: the parameters passed the constructor's assertions, `range` caches `max - min`,
`buckets` has exactly `bucketCount` entries, and every counter holds a 32-bit value. -/
def Valid (h : Histogram) : Prop :=
  0 < h.bucketCount ∧ h.max.ge h.min = true ∧ h.range = h.max.sub h.min ∧
    h.range.ge (.finite 0) = true ∧ (h.max.eq h.min = true → h.bucketCount = 1) ∧
    (h.buckets.length : Int) = h.bucketCount ∧
    (∀ c ∈ h.buckets, isInt32 c) ∧ isInt32 h.outOfBounds ∧ isInt32 h.missing

instance (h : Histogram) : Decidable h.Valid := by
  unfold Valid; infer_instance

/-- The state `Histogram(4, 0, 100)` right after construction. -/
def fresh4 : Histogram :=
  { buckets := [0, 0, 0, 0], bucketCount := 4, min := .finite 0, max := .finite 100,
    range := .finite 100, outOfBounds := 0, missing := 0 }

/-- The state `Histogram(1, 5, 5)` right after construction. -/
def fresh1 : Histogram :=
  { buckets := [0], bucketCount := 1, min := .finite 5, max := .finite 5,
    range := .finite 0, outOfBounds := 0, missing := 0 }

/-- The state `Histogram(2, -2^1023, 2^1023)` right after construction; the width
`2^1024` of the range is not a finite double. -/
def freshWide : Histogram :=
  { buckets := [0, 0], bucketCount := 2, min := .finite (-2 ^ 1023),
    max := .finite (2 ^ 1023), range := .posInf, outOfBounds := 0, missing := 0 }

/-- One recording call made by a client of a histogram. -/
inductive Call where
  | add (value : Double)
  | addMissing
  deriving DecidableEq

/-- Execute one recording call. -/
def call (h : Histogram) : Call → Except Failure Histogram
  | .add value => h.add value
  | .addMissing => .ok h.addMissing

/-- Execute a sequence of recording calls in order, stopping at the first abort. -/
def run (h : Histogram) (calls : List Call) : Except Failure Histogram :=
  calls.foldlM call h

/-- Whether a call increments `outOfBounds`. -/
def hitsOutOfBounds (h : Histogram) : Call → Bool
  | .add value => h.isOutOfBounds value
  | .addMissing => false

/-- Whether a call passes the bounds test with bucket index `j`. -/
def hitsBucket (h : Histogram) (j : Nat) : Call → Bool
  | .add value => !h.isOutOfBounds value && decide (h.bucketIndex value = (j : Int))
  | .addMissing => false

/-- Whether a call increments `missing`. -/
def hitsMissing : Call → Bool
  | .add _ => false
  | .addMissing => true

end Histogram

/-- The fields of `class DoubleColumn`, in declaration order. -/
structure DoubleColumn where
  size : Int
  data : List Double
  deriving DecidableEq

namespace DoubleColumn

/-- The constructor `DoubleColumn::DoubleColumn(int size)`.  `new double[size]` does not
initialise the elements; `initial i` is whatever element `i` holds after allocation. -/
def new (size : Int) (initial : Nat → Double) : Except Failure DoubleColumn :=
  if ¬ (size > 0) then .error .assertSizePos
  else .ok { size := size, data := (List.range size.toNat).map initial }

/-- The body of the loop in `fillRandom`:
`this->data[i] = min + i % (int)(max - min)`.  The remainder is an `int`, converted to
`double` for the sum. -/
def fillRandomStep (min max : Double) (i : Nat) (col : DoubleColumn) :
    Except Failure DoubleColumn :=
  if (max.sub min).toInt32 = 0 then .error .modByZero
  else if i < col.data.length then
    .ok { col with
      data := col.data.set i (min.add (Double.ofInt ((i : Int).tmod (max.sub min).toInt32))) }
  else .error .badIndex

/-- The method `DoubleColumn::fillRandom(double min, double max)`. -/
def fillRandom (c : DoubleColumn) (min max : Double) : Except Failure DoubleColumn :=
  forLoop c.size.toNat (fillRandomStep min max) c

/-- The body of the loop in `histogram`: `histo->add(this->data[i])`. -/
def histogramStep (c : DoubleColumn) (i : Nat) (histo : Histogram) :
    Except Failure Histogram :=
  match c.data[i]? with
  | none => .error .badIndex
  | some value => histo.add value

/-- The method `DoubleColumn::histogram(Histogram* histo)`; the result is the new state
of `*histo`. -/
def histogram (c : DoubleColumn) (histo : Histogram) : Except Failure Histogram :=
  forLoop c.size.toNat (histogramStep c) histo

/-- The representation invariant established by the constructor: a positive `size`
that is an `int`, and exactly `size` allocated elements. -/
def Valid (c : DoubleColumn) : Prop :=
  0 < c.size ∧ c.size ≤ 2147483647 ∧ (c.data.length : Int) = c.size

instance (c : DoubleColumn) : Decidable c.Valid := by
  unfold Valid; infer_instance

/-- A column of length 3 whose elements still hold arbitrary allocation contents. -/
def sample3 : DoubleColumn :=
  { size := 3, data := [.finite 7, .nan, .finite (-2)] }

end DoubleColumn

namespace Histogram

/-- The state `Histogram(4, 0, 100)` after 2147483647 calls of `addMissing()`. -/
def fullMissing : Histogram :=
  { fresh4 with missing := 2147483647 }

/-- The state `Histogram(4, 0, 100)` after 2147483647 calls of `add(-1)`. -/
def fullOutOfBounds : Histogram :=
  { fresh4 with outOfBounds := 2147483647 }

/-- The state `Histogram(1, 5, 5)` after 2147483647 calls of `add(5)`. -/
def fullSingle : Histogram :=
  { fresh1 with buckets := [2147483647] }

/-- A short call sequence on `Histogram(4, 0, 100)`: two values of bucket 1, one value
below `min` and one missing value. -/
def sampleCalls : List Call :=
  [.add (.finite 30), .add (.finite (-1)), .addMissing, .add (.finite 30)]

/-- The state of `Histogram(4, 0, 100)` after `sampleCalls`. -/
def afterSampleCalls : Histogram :=
  { fresh4 with buckets := [0, 2, 0, 0], outOfBounds := 1, missing := 1 }

end Histogram

/-- The state `Histogram(40, 0, 100)` right after construction, as in `main`. -/
def Histogram.fresh40 : Histogram :=
  ⟨List.replicate 40 0, 40, .finite 0, .finite 100, .finite 100, 0, 0⟩

end Machine

/-! ## Theorems -/

/-- A loop of zero iterations leaves the state as it is. -/
theorem forLoop_zero {σ : Type} (body : Nat → σ → Except Failure σ) (s : σ) :
    forLoop 0 body s = .ok s :=
  rfl

/-- A loop of `n + 1` iterations runs `n` iterations and then the body at index `n`. -/
theorem forLoop_succ {σ : Type} (n : Nat) (body : Nat → σ → Except Failure σ) (s : σ) :
    forLoop (n + 1) body s = (forLoop n body s).bind (body n) := by
  unfold forLoop
  rw [List.range_succ, List.foldlM_append]
  cases (List.foldlM (fun acc i => body i acc) s (List.range n)) with
  | error e => rfl
  | ok s1 =>
    show List.foldlM (fun acc i => body i acc) s1 [n] = body n s1
    rw [List.foldlM_cons]
    simp only [List.foldlM_nil]
    exact bind_pure _

/-- On a non-negative argument the conversion to `int` is the floor. -/
theorem doubleToInt_of_nonneg {x : ℚ} (hx : 0 ≤ x) : doubleToInt x = ⌊x⌋ := by
  unfold doubleToInt
  rw [Rat.floor_def, Int.tdiv_eq_ediv (Rat.num_nonneg.mpr hx) (Int.ofNat_nonneg _)]

/-- Adding one to a stored entry adds one to the sum of the list. -/
theorem sum_set_succ (l : List Int) (i : Nat) (c : Int) (hc : l[i]? = some c) :
    (l.set i (c + 1)).sum = l.sum + 1 := by
  induction l generalizing i with
  | nil => simp at hc
  | cons a t ih =>
    cases i with
    | zero =>
      simp at hc
      subst hc
      simp [List.set]
      ring
    | succ k =>
      simp at hc
      simp [List.set, ih k hc]
      ring

namespace Histogram

/-- The scaled offset is non-negative for a value at or above `min`. -/
theorem scaled_nonneg (h : Histogram) (v : ℚ) (hv : h.Valid) (hlo : h.min ≤ v) :
    0 ≤ (h.bucketCount : ℚ) * (v - h.min) / (h.max - h.min) := by
  obtain ⟨hbc, hmm, -, -, -⟩ := hv
  have h1 : (0 : ℚ) ≤ (h.bucketCount : ℚ) := by exact_mod_cast hbc.le
  exact div_nonneg (mul_nonneg h1 (sub_nonneg.mpr hlo)) (sub_nonneg.mpr hmm)

/-- With a non-empty range the index computed by `add` for a value at or above `min`
is the floor of the scaled offset. -/
theorem bucketIndex_eq_floor (h : Histogram) (v : ℚ) (hv : h.Valid) (hlt : h.min < h.max)
    (hlo : h.min ≤ v) :
    h.bucketIndex v = .ok ⌊(h.bucketCount : ℚ) * (v - h.min) / (h.max - h.min)⌋ := by
  have hnn := scaled_nonneg h v hv hlo
  obtain ⟨-, -, hr, -, -⟩ := hv
  have hpos : 0 < h.max - h.min := sub_pos.mpr hlt
  unfold bucketIndex
  rw [if_neg (by rw [hr]; exact not_le.mpr hpos), if_neg hpos.ne', doubleToInt_of_nonneg hnn]

/-- The floor of the scaled offset is below `bucketCount` for a value below `max`. -/
theorem floor_scaled_lt (h : Histogram) (v : ℚ) (hv : h.Valid) (hhi : v < h.max)
    (hlt : h.min < h.max) :
    ⌊(h.bucketCount : ℚ) * (v - h.min) / (h.max - h.min)⌋ < h.bucketCount := by
  have hpos : 0 < h.max - h.min := sub_pos.mpr hlt
  have hb : (0 : ℚ) < (h.bucketCount : ℚ) := by exact_mod_cast hv.1
  rw [Int.floor_lt, div_lt_iff₀ hpos]
  exact mul_lt_mul_of_pos_left (by linarith) hb

/-- At `value == max` with a non-empty range the scaled offset is exactly `bucketCount`. -/
theorem scaled_max (h : Histogram) (hlt : h.min < h.max) :
    (h.bucketCount : ℚ) * (h.max - h.min) / (h.max - h.min) = (h.bucketCount : ℚ) :=
  mul_div_cancel_right₀ _ (sub_pos.mpr hlt).ne'

/-- The effect of `add` once the bounds test has passed and the index is known to lie
inside the bucket array. -/
theorem add_of_index (h : Histogram) (v : ℚ) (b : Int) (c : Int)
    (hin : ¬ (v < h.min ∨ v > h.max)) (hb : h.bucketIndex v = .ok b)
    (h0 : 0 ≤ b) (h1 : b < h.bucketCount) (hc : h.buckets[b.toNat]? = some c) :
    h.add v = .ok { h with buckets := h.buckets.set b.toNat (c + 1) } := by
  unfold add
  rw [if_neg hin, hb]
  simp only [ge_iff_le, not_le, not_lt]
  rw [if_neg (not_lt.mpr h0), if_neg (not_le.mpr h1), hc]

/-- The constructor establishes the representation invariant. -/
theorem valid_of_new (bc : Int) (mn mx : ℚ) (h : Histogram) (hn : new bc mn mx = .ok h) :
    h.Valid ∧ h.bucketCount = bc ∧ h.min = mn ∧ h.max = mx := by
  unfold new at hn
  simp only [gt_iff_lt, ge_iff_le] at hn
  split_ifs at hn with h1 h2 h3 h4
  cases hn
  refine ⟨⟨h1, h2, rfl, ?_, ?_⟩, rfl, rfl, rfl⟩
  · intro he
    by_contra hne
    exact h4 ⟨he, hne⟩
  · simp only [List.length_replicate]
    exact Int.toNat_of_nonneg h1.le

/-- When the three preconditions hold the constructor returns the all-zero histogram. -/
theorem new_eq_ok (bc : Int) (mn mx : ℚ) (h1 : 0 < bc) (h2 : mn ≤ mx)
    (h4 : mx = mn → bc = 1) :
    new bc mn mx = .ok ⟨List.replicate bc.toNat 0, bc, mn, mx, mx - mn, 0, 0⟩ := by
  unfold new
  simp only [gt_iff_lt, ge_iff_le]
  rw [if_neg (not_not.mpr h1), if_neg (not_not.mpr h2),
    if_neg (not_not.mpr (sub_nonneg.mpr h2)), if_neg (fun hx => hx.2 (h4 hx.1))]

/-- In a valid state every index below `bucketCount` addresses a stored bucket. -/
theorem exists_bucket (h : Histogram) (hv : h.Valid) (b : Int) (h0 : 0 ≤ b)
    (h1 : b < h.bucketCount) : ∃ c, h.buckets[b.toNat]? = some c := by
  have hlen : b.toNat < h.buckets.length := by
    have := hv.2.2.2.2
    omega
  exact ⟨h.buckets[b.toNat], List.getElem?_eq_getElem hlen⟩

/-- In a state satisfying the constructor's invariant, `add(v)` with
`min <= v < max` completes, adds one to the bucket whose index is
`floor(bucketCount*(v-min)/(max-min))`, and leaves every other bucket, the number of
buckets, `outOfBounds` and `missing` as they were. -/
theorem add_in_range_effect (h : Histogram) (v : ℚ) (hv : h.Valid)
    (hlo : h.min ≤ v) (hhi : v < h.max) :
    ∃ (h' : Histogram) (b : Nat) (c : Int),
      h.add v = .ok h' ∧
      (b : Int) = ⌊(h.bucketCount : ℚ) * (v - h.min) / (h.max - h.min)⌋ ∧
      (b : Int) < h.bucketCount ∧
      h.buckets[b]? = some c ∧ h'.buckets[b]? = some (c + 1) ∧
      (∀ j : Nat, j ≠ b → h'.buckets[j]? = h.buckets[j]?) ∧
      h'.buckets.length = h.buckets.length ∧
      h'.outOfBounds = h.outOfBounds ∧ h'.missing = h.missing ∧
      h'.bucketCount = h.bucketCount ∧ h'.min = h.min ∧ h'.max = h.max ∧
      h'.range = h.range := by
  have hlt : h.min < h.max := lt_of_le_of_lt hlo hhi
  have hidx := bucketIndex_eq_floor h v hv hlt hlo
  have h0 : 0 ≤ ⌊(h.bucketCount : ℚ) * (v - h.min) / (h.max - h.min)⌋ :=
    Int.floor_nonneg.mpr (scaled_nonneg h v hv hlo)
  have h1 := floor_scaled_lt h v hv hhi hlt
  obtain ⟨c, hc⟩ := exists_bucket h hv _ h0 h1
  have hin : ¬ (v < h.min ∨ v > h.max) := by
    rintro (hx | hx)
    · exact absurd hlo (not_le.mpr hx)
    · exact absurd hhi (not_lt.mpr hx.le)
  have hb : (⌊(h.bucketCount : ℚ) * (v - h.min) / (h.max - h.min)⌋.toNat : Int) =
      ⌊(h.bucketCount : ℚ) * (v - h.min) / (h.max - h.min)⌋ := Int.toNat_of_nonneg h0
  have hlen : ⌊(h.bucketCount : ℚ) * (v - h.min) / (h.max - h.min)⌋.toNat <
      h.buckets.length := by
    by_contra hge
    rw [List.getElem?_eq_none (not_lt.mp hge)] at hc
    cases hc
  refine ⟨_, _, c, add_of_index h v _ c hin hidx h0 h1 hc, hb, hb ▸ h1, hc, ?_, ?_, ?_,
    rfl, rfl, rfl, rfl, rfl, rfl⟩
  · simp [List.getElem?_set, hlen]
  · intro j hj
    simp [List.getElem?_set, Ne.symm hj]
  · simp

/-- With a non-empty range, `add(max)` passes the bounds test, computes the index
`bucketCount` and aborts on the assertion of line 40. -/
theorem add_max_aborts (h : Histogram) (hv : h.Valid) (hlt : h.min < h.max) :
    h.add h.max = .error .assertIndexLtCount := by
  have hidx := bucketIndex_eq_floor h h.max hv hlt hlt.le
  rw [scaled_max h hlt, Int.floor_intCast] at hidx
  have hin : ¬ (h.max < h.min ∨ h.max > h.max) := by
    rintro (hx | hx)
    · exact absurd hlt (not_lt.mpr hx.le)
    · exact absurd hx (lt_irrefl _)
  unfold add
  rw [if_neg hin, hidx]
  simp only [ge_iff_le, not_le, not_lt]
  rw [if_neg (not_lt.mpr hv.1.le), if_pos le_rfl]

/-- Every completed `add` either counted the value as out of range or incremented one
stored bucket; nothing else changes. -/
theorem add_ok_cases (h h' : Histogram) (v : ℚ) (hok : h.add v = .ok h') :
    ((v < h.min ∨ v > h.max) ∧ h' = { h with outOfBounds := h.outOfBounds + 1 }) ∨
    (¬ (v < h.min ∨ v > h.max) ∧ ∃ (b : Nat) (c : Int), h.buckets[b]? = some c ∧
      h' = { h with buckets := h.buckets.set b (c + 1) }) := by
  unfold add at hok
  by_cases hout : v < h.min ∨ v > h.max
  · rw [if_pos hout] at hok
    cases hok
    exact Or.inl ⟨hout, rfl⟩
  · rw [if_neg hout] at hok
    right
    refine ⟨hout, ?_⟩
    cases hb : h.bucketIndex v with
    | error e =>
      rw [hb] at hok
      cases hok
    | ok b =>
      rw [hb] at hok
      simp only [ge_iff_le, not_le, not_lt] at hok
      split_ifs at hok with h0 h1
      cases hc : h.buckets[b.toNat]? with
      | none =>
        rw [hc] at hok
        cases hok
      | some c =>
        rw [hc] at hok
        cases hok
        exact ⟨b.toNat, c, hc, rfl⟩

/-- A completed `add` preserves the representation invariant. -/
theorem valid_add (h h' : Histogram) (v : ℚ) (hv : h.Valid) (hok : h.add v = .ok h') :
    h'.Valid := by
  rcases add_ok_cases h h' v hok with ⟨-, rfl⟩ | ⟨-, b, c, -, rfl⟩
  · exact hv
  · obtain ⟨h1, h2, h3, h4, h5⟩ := hv
    exact ⟨h1, h2, h3, h4, by simpa using h5⟩

/-- A completed `add` raises the total by one. -/
theorem total_add (h h' : Histogram) (v : ℚ) (hok : h.add v = .ok h') :
    h'.total = h.total + 1 := by
  rcases add_ok_cases h h' v hok with ⟨-, rfl⟩ | ⟨-, b, c, hc, rfl⟩
  · simp only [total]
    ring
  · simp only [total, sum_set_succ h.buckets b c hc]
    ring

/-- A freshly constructed histogram accounts for no value. -/
theorem total_of_new (bc : Int) (mn mx : ℚ) (h : Histogram) (hn : new bc mn mx = .ok h) :
    h.total = 0 := by
  unfold new at hn
  simp only [gt_iff_lt, ge_iff_le] at hn
  split_ifs at hn
  cases hn
  simp [total]

/-! ### Claims -/

/-- C2. On `Histogram(4, 0, 100)` the call `add(100)` does not increment bucket 3: the
bounds test admits the value, the computed index is 4 and the run aborts on
`assert(bucketIndex < this->bucketCount)`. -/
theorem add_max_hits_index_assertion :
    new 4 0 100 = .ok fresh4 ∧ fresh4.bucketIndex 100 = .ok 4 ∧
      fresh4.add 100 = .error .assertIndexLtCount := by
  have hv : fresh4.Valid := by norm_num [Valid, fresh4]
  have hlt : fresh4.min < fresh4.max := by norm_num [fresh4]
  refine ⟨?_, ?_, add_max_aborts fresh4 hv hlt⟩
  · norm_num [new, fresh4]
    rfl
  · norm_num [bucketIndex, fresh4, doubleToInt]

/-- C3. Binning can abort on a value inside the closed range: on the histogram built
by `Histogram(40, 0, 100)` the value 100 satisfies `min <= 100 <= max`, yet `add(100)`
aborts on `assert(bucketIndex < this->bucketCount)`. -/
theorem add_aborts_inside_closed_range :
    ∃ h, new 40 0 100 = .ok h ∧ h.min ≤ 100 ∧ (100 : ℚ) ≤ h.max ∧
      h.add 100 = .error .assertIndexLtCount := by
  have hn : ∃ h, new 40 0 100 = .ok h := by
    norm_num [new]
  obtain ⟨h, hn⟩ := hn
  obtain ⟨hv, -, hmin, hmax⟩ := valid_of_new 40 0 100 h hn
  have hlt : h.min < h.max := by rw [hmin, hmax]; norm_num
  refine ⟨h, hn, by rw [hmin]; norm_num, by rw [hmax], ?_⟩
  have := add_max_aborts h hv hlt
  rwa [hmax] at this

end Histogram

namespace DoubleColumn

/-- The constructor establishes the representation invariant. -/
theorem column_valid_of_new (size : Int) (initial : Nat → ℚ) (c : DoubleColumn)
    (hn : new size initial = .ok c) : c.Valid ∧ c.size = size := by
  unfold new at hn
  simp only [gt_iff_lt] at hn
  split_ifs at hn with h1
  cases hn
  refine ⟨⟨h1, ?_⟩, rfl⟩
  simp only [List.length_map, List.length_range]
  exact Int.toNat_of_nonneg h1.le

/-- State of the column after the first `n` iterations of the loop in `fillRandom`,
when the modulus is not zero: elements below `n` hold the ramp, the others are
untouched. -/
theorem fillRandom_loop (mn mx : ℚ) (c : DoubleColumn) (hk : doubleToInt (mx - mn) ≠ 0)
    (n : Nat) (hn : n ≤ c.data.length) :
    ∃ c', forLoop n (fillRandomStep mn mx) c = .ok c' ∧ c'.size = c.size ∧
      c'.data.length = c.data.length ∧
      (∀ i, i < n →
        c'.data[i]? = some (mn + (((i : Int).tmod (doubleToInt (mx - mn)) : Int) : ℚ))) ∧
      (∀ i, n ≤ i → c'.data[i]? = c.data[i]?) := by
  induction n with
  | zero => exact ⟨c, forLoop_zero _ c, rfl, rfl, fun i hi => absurd hi (Nat.not_lt_zero i),
      fun i _ => rfl⟩
  | succ n ih =>
    obtain ⟨c1, hrun, hsize, hlen, hlow, hhigh⟩ := ih (Nat.le_of_succ_le hn)
    have hn1 : n < c1.data.length := by omega
    refine ⟨⟨c1.size,
      c1.data.set n (mn + (((n : Int).tmod (doubleToInt (mx - mn)) : Int) : ℚ))⟩,
      ?_, hsize, ?_, ?_, ?_⟩
    · rw [forLoop_succ, hrun]
      show fillRandomStep mn mx n c1 = _
      unfold fillRandomStep
      rw [if_neg hk, if_pos hn1]
    · simp [hlen]
    · intro i hi
      rcases Nat.lt_succ_iff_lt_or_eq.mp hi with hlt | rfl
      · simp only [List.getElem?_set, if_neg (Nat.ne_of_gt hlt)]
        exact hlow i hlt
      · simp [List.getElem?_set, hn1]
    · intro i hi
      have hne : n ≠ i := by omega
      simp only [List.getElem?_set, if_neg hne]
      exact hhigh i (by omega)

/-- For a range of width at least one the modulus used by `fillRandom` is the floor of
the width, and it is positive. -/
theorem modulus_of_width (mn mx : ℚ) (hw : 1 ≤ mx - mn) :
    doubleToInt (mx - mn) = ⌊mx - mn⌋ ∧ 0 < ⌊mx - mn⌋ := by
  refine ⟨doubleToInt_of_nonneg (by linarith), ?_⟩
  have : (1 : Int) ≤ ⌊mx - mn⌋ := Int.le_floor.mpr (by simpa using hw)
  omega

/-- Effect of `fillRandom` on a valid column for a range of width at least one. -/
theorem fillRandom_effect (c : DoubleColumn) (hc : c.Valid) (mn mx : ℚ)
    (hw : 1 ≤ mx - mn) :
    ∃ c', c.fillRandom mn mx = .ok c' ∧ c'.size = c.size ∧
      c'.data.length = c.data.length ∧
      ∀ i : Nat, (i : Int) < c.size →
        ∃ x, c'.data[i]? = some x ∧ x = mn + ((((i : Int) % ⌊mx - mn⌋ : Int)) : ℚ) ∧
          mn ≤ x ∧ x < mx := by
  obtain ⟨hk, hpos⟩ := modulus_of_width mn mx hw
  have hlen : c.size.toNat ≤ c.data.length := by
    have := hc.2
    omega
  obtain ⟨c', hrun, hsize, hl, hlow, -⟩ :=
    fillRandom_loop mn mx c (by rw [hk]; exact hpos.ne') c.size.toNat hlen
  refine ⟨c', hrun, hsize, hl, ?_⟩
  intro i hi
  have hi' : i < c.size.toNat := by omega
  have hmod : (i : Int).tmod (doubleToInt (mx - mn)) = (i : Int) % ⌊mx - mn⌋ := by
    rw [hk, Int.tmod_eq_emod (Int.ofNat_nonneg i) hpos.le]
  refine ⟨_, hlow i hi', by rw [hmod], ?_, ?_⟩
  · rw [hmod]
    have h0 : (0 : Int) ≤ (i : Int) % ⌊mx - mn⌋ := Int.emod_nonneg _ hpos.ne'
    have : (0 : ℚ) ≤ (((i : Int) % ⌊mx - mn⌋ : Int) : ℚ) := by exact_mod_cast h0
    linarith
  · rw [hmod]
    have h1 : (i : Int) % ⌊mx - mn⌋ + 1 ≤ ⌊mx - mn⌋ := Int.emod_lt_of_pos _ hpos
    have h2 : ((((i : Int) % ⌊mx - mn⌋ : Int)) : ℚ) + 1 ≤ ((⌊mx - mn⌋ : Int) : ℚ) :=
      mod_cast h1
    have h3 : ((⌊mx - mn⌋ : Int) : ℚ) ≤ mx - mn := Int.floor_le _
    linarith

/-- Counting over one more index. -/
theorem countP_range_succ (p : Nat → Bool) (j : Nat) :
    (List.range (j + 1)).countP p = (List.range j).countP p + (if p j then 1 else 0) := by
  rw [List.range_succ, List.countP_append, List.countP_cons, List.countP_nil, Nat.zero_add]

/-- State of the histogram after the first `j` iterations of the loop in `histogram`,
when those elements all lie in `[min, max)`: every bucket has gained the number of
elements whose index it is. -/
theorem histogram_loop (c : DoubleColumn) (h0 : Histogram) (hv : h0.Valid) (val : Nat → ℚ)
    (j : Nat) (hdata : ∀ i, i < j → c.data[i]? = some (val i))
    (hin : ∀ i, i < j → h0.min ≤ val i ∧ val i < h0.max) :
    ∃ h, forLoop j (histogramStep c) h0 = .ok h ∧ h.Valid ∧
      h.bucketCount = h0.bucketCount ∧ h.min = h0.min ∧ h.max = h0.max ∧
      h.outOfBounds = h0.outOfBounds ∧ h.missing = h0.missing ∧
      h.buckets.length = h0.buckets.length ∧
      ∀ b : Nat, b < h0.buckets.length → ∃ c0, h0.buckets[b]? = some c0 ∧
        h.buckets[b]? = some (c0 + ((List.range j).countP (fun i =>
          decide (⌊(h0.bucketCount : ℚ) * (val i - h0.min) / (h0.max - h0.min)⌋ =
            (b : Int))) : Nat)) := by
  induction j with
  | zero =>
    refine ⟨h0, forLoop_zero _ h0, hv, rfl, rfl, rfl, rfl, rfl, rfl, ?_⟩
    intro b hb
    exact ⟨h0.buckets[b], List.getElem?_eq_getElem hb, by simp⟩
  | succ j ih =>
    obtain ⟨h1, hrun, hv1, hbc, hmin, hmax, hoob, hmiss, hlen, hcnt⟩ :=
      ih (fun i hi => hdata i (Nat.lt_succ_of_lt hi))
        (fun i hi => hin i (Nat.lt_succ_of_lt hi))
    obtain ⟨hlo, hhi⟩ := hin j (Nat.lt_succ_self j)
    obtain ⟨h2, b0, c1, hadd, hb0, -, hold, hnew, hothers, hlen2, hoob2, hmiss2, hbc2, hmin2,
      hmax2, -⟩ := Histogram.add_in_range_effect h1 (val j) hv1 (hmin ▸ hlo) (hmax ▸ hhi)
    rw [hbc, hmin, hmax] at hb0
    refine ⟨h2, ?_, Histogram.valid_add h1 h2 (val j) hv1 hadd, hbc2.trans hbc,
      hmin2.trans hmin, hmax2.trans hmax, hoob2.trans hoob, hmiss2.trans hmiss,
      hlen2.trans hlen, ?_⟩
    · rw [forLoop_succ, hrun]
      show histogramStep c j h1 = _
      unfold histogramStep
      rw [hdata j (Nat.lt_succ_self j)]
      exact hadd
    · intro b hb
      obtain ⟨c0, hc0, hc1⟩ := hcnt b hb
      refine ⟨c0, hc0, ?_⟩
      rw [countP_range_succ]
      by_cases hbb : b = b0
      · subst hbb
        rw [hc1] at hold
        cases hold
        rw [hnew]
        simp only [← hb0, decide_True, if_true, Nat.cast_add, Nat.cast_one]
        congr 1
        ring
      · rw [hothers b hbb, hc1]
        have hne : ¬ (⌊(h0.bucketCount : ℚ) * (val j - h0.min) / (h0.max - h0.min)⌋ =
            (b : Int)) := by
          rw [← hb0]
          intro hx
          exact hbb (by exact_mod_cast hx.symm)
        simp only [hne, decide_False, Bool.false_eq_true, if_false, Nat.add_zero]

end DoubleColumn

namespace Histogram

/-! ### Shape of the bucket map -/

/-- The floor of the scaled offset is `b` exactly on the `b`-th sub-interval of width
`(max - min) / bucketCount`. -/
theorem floor_scaled_eq_iff (h : Histogram) (hv : h.Valid) (hlt : h.min < h.max) (v : ℚ)
    (b : Int) :
    ⌊(h.bucketCount : ℚ) * (v - h.min) / (h.max - h.min)⌋ = b ↔
      (h.min + (b : ℚ) * (h.max - h.min) / (h.bucketCount : ℚ) ≤ v ∧
        v < h.min + ((b : ℚ) + 1) * (h.max - h.min) / (h.bucketCount : ℚ)) := by
  have hpos : 0 < h.max - h.min := sub_pos.mpr hlt
  have hb : (0 : ℚ) < (h.bucketCount : ℚ) := by exact_mod_cast hv.1
  rw [Int.floor_eq_iff, le_div_iff₀ hpos, div_lt_iff₀ hpos]
  have e1 : h.min + (b : ℚ) * (h.max - h.min) / (h.bucketCount : ℚ) ≤ v ↔
      (b : ℚ) * (h.max - h.min) ≤ (h.bucketCount : ℚ) * (v - h.min) := by
    rw [← le_sub_iff_add_le', div_le_iff₀ hb]
    constructor <;> intro hx <;> linarith
  have e2 : v < h.min + ((b : ℚ) + 1) * (h.max - h.min) / (h.bucketCount : ℚ) ↔
      (h.bucketCount : ℚ) * (v - h.min) < ((b : ℚ) + 1) * (h.max - h.min) := by
    rw [← sub_lt_iff_lt_add', lt_div_iff₀ hb]
    constructor <;> intro hx <;> linarith
  rw [e1, e2]

end Histogram

/-! ### Traversal order of `histogram` -/

/-- Two loop bodies that agree on the indices below `n` give the same loop. -/
theorem forLoop_congr {σ : Type} (n : Nat) (body1 body2 : Nat → σ → Except Failure σ)
    (s : σ)
    (hb : ∀ i, i < n → ∀ t, body1 i t = body2 i t) :
    forLoop n body1 s = forLoop n body2 s := by
  induction n with
  | zero => rfl
  | succ n ih =>
    rw [forLoop_succ, forLoop_succ, ih (fun i hi t => hb i (Nat.lt_succ_of_lt hi) t)]
    cases forLoop n body2 s with
    | error e => rfl
    | ok t => exact hb n (Nat.lt_succ_self n) t

namespace DoubleColumn

/-- The loop of `histogram` over all stored elements is the left fold of `add` over
the element sequence. -/
theorem histogram_loop_eq_fold (l : List ℚ) (size : Int) (h : Histogram) :
    forLoop l.length (histogramStep ⟨size, l⟩) h = l.foldlM Histogram.add h := by
  induction l using List.reverseRecOn generalizing h with
  | nil => rfl
  | append_singleton l x ih =>
    rw [List.length_append, List.length_singleton, forLoop_succ, List.foldlM_append]
    have hcongr : forLoop l.length (histogramStep ⟨size, l ++ [x]⟩) h =
        forLoop l.length (histogramStep ⟨size, l⟩) h := by
      apply forLoop_congr
      intro i hi t
      unfold histogramStep
      simp only [List.getElem?_append_left hi]
    rw [hcongr, ih]
    cases List.foldlM Histogram.add h l with
    | error e => rfl
    | ok t =>
      show histogramStep ⟨size, l ++ [x]⟩ l.length t = List.foldlM Histogram.add t [x]
      unfold histogramStep
      simp only [List.getElem?_concat_length, List.foldlM_cons, List.foldlM_nil]
      exact (bind_pure _).symm

/-- On a valid column `histogram` is the left fold of `add` over `data`. -/
theorem histogram_eq_fold (c : DoubleColumn) (hc : c.Valid) (h : Histogram) :
    c.histogram h = c.data.foldlM Histogram.add h := by
  have hlen : c.size.toNat = c.data.length := by
    have := hc.2
    omega
  unfold histogram
  rw [hlen]
  exact histogram_loop_eq_fold c.data c.size h

/-- C11. On a valid column, `histogram(histo)` passes every element to `add` once, in
index order: the resulting histogram state is the left fold of `add` over `data`.  The
column itself is only read, so a second pass sees the same elements: two passes are the
fold over `data` followed by `data`. -/
theorem histogram_is_fold (c : DoubleColumn) (hc : c.Valid) (h : Histogram) :
    c.histogram h = c.data.foldlM Histogram.add h ∧
      (c.histogram h).bind c.histogram = (c.data ++ c.data).foldlM Histogram.add h := by
  refine ⟨histogram_eq_fold c hc h, ?_⟩
  rw [List.foldlM_append, histogram_eq_fold c hc h]
  cases List.foldlM Histogram.add h c.data with
  | error e => rfl
  | ok t => exact histogram_eq_fold c hc t

/-- C11, instantiated on a column of length 3 and `Histogram(4, 0, 100)`. -/
theorem histogram_is_fold_witness :
    sample3.Valid ∧
    sample3.histogram Histogram.fresh4 = sample3.data.foldlM Histogram.add Histogram.fresh4 ∧
      (sample3.histogram Histogram.fresh4).bind sample3.histogram =
        (sample3.data ++ sample3.data).foldlM Histogram.add Histogram.fresh4 :=
  have hc : sample3.Valid := by norm_num [Valid, sample3]
  ⟨hc, histogram_is_fold sample3 hc Histogram.fresh4⟩

end DoubleColumn

namespace Histogram

/-! ### Rendering -/

/-- Rendering a concatenation renders the parts, the second from the next index on. -/
theorem renderPairs_append (l1 l2 : List Int) (i : Nat) :
    renderPairs i (l1 ++ l2) = renderPairs i l1 ++ renderPairs (i + l1.length) l2 := by
  induction l1 generalizing i with
  | nil => rfl
  | cons a t ih =>
    have harith : i + (a :: t).length = i + 1 + t.length := by
      simp only [List.length_cons]
      omega
    rw [harith]
    show _ ++ renderPairs (i + 1) (t ++ l2) = (_ ++ renderPairs (i + 1) t) ++ _
    rw [ih (i + 1), List.append_assoc]

/-- After `n` iterations the loop of `print` has written the pairs of the first `n`
buckets. -/
theorem print_loop (h : Histogram) (out : List Output) (n : Nat)
    (hn : n ≤ h.buckets.length) :
    forLoop n h.printStep out = .ok (out ++ renderPairs 0 (h.buckets.take n)) := by
  induction n with
  | zero => simp [forLoop_zero, renderPairs]
  | succ n ih =>
    have hlt : n < h.buckets.length := hn
    rw [forLoop_succ, ih (Nat.le_of_succ_le hn)]
    show printStep h n _ = _
    unfold printStep
    rw [List.getElem?_eq_getElem hlt, List.take_succ, List.getElem?_eq_getElem hlt,
      renderPairs_append]
    simp [renderPairs, List.length_take, Nat.min_eq_left (Nat.le_of_succ_le hn)]

/-- In a valid state `print` appends the pairs of all buckets and the terminator. -/
theorem print_eq (h : Histogram) (hv : h.Valid) (out : List Output) :
    h.print out = .ok (out ++ renderPairs 0 h.buckets ++ [.endl]) := by
  have hlen : h.bucketCount.toNat = h.buckets.length := by
    have := hv.2.2.2.2
    omega
  unfold print
  rw [hlen, print_loop h out h.buckets.length le_rfl, List.take_length]

/-- C12. In a valid state `print` writes one (index, count) entry per bucket, for the
indices `0..bucketCount-1` in increasing order, followed by one terminator.  The
histogram is not changed, so printing again writes the same items a second time; and a
valid histogram with the same bucket counts but other `outOfBounds` / `missing` prints
identically. -/
theorem print_depends_on_buckets_only (h1 h2 : Histogram) (hv1 : h1.Valid) (hv2 : h2.Valid)
    (hb : h1.buckets = h2.buckets) (out : List Output) :
    h1.print out = .ok (out ++ renderPairs 0 h1.buckets ++ [.endl]) ∧
      h2.print out = h1.print out ∧
      (h1.print out).bind h1.print =
        .ok (out ++ (renderPairs 0 h1.buckets ++ [.endl]) ++
          (renderPairs 0 h1.buckets ++ [.endl])) := by
  refine ⟨print_eq h1 hv1 out, ?_, ?_⟩
  · rw [print_eq h1 hv1 out, print_eq h2 hv2 out, hb]
  · rw [print_eq h1 hv1 out]
    show h1.print _ = _
    rw [print_eq h1 hv1]
    simp only [List.append_assoc]

/-- C12, instantiated on `Histogram(4, 0, 100)` before and after `addMissing()`. -/
theorem print_depends_on_buckets_only_witness :
    fresh4.Valid ∧ fresh4.addMissing.Valid ∧ fresh4.buckets = fresh4.addMissing.buckets ∧
    fresh4.addMissing.missing ≠ fresh4.missing ∧
    fresh4.print [] = .ok ([] ++ renderPairs 0 fresh4.buckets ++ [.endl]) ∧
      fresh4.addMissing.print [] = fresh4.print [] ∧
      (fresh4.print []).bind fresh4.print =
        .ok ([] ++ (renderPairs 0 fresh4.buckets ++ [.endl]) ++
          (renderPairs 0 fresh4.buckets ++ [.endl])) :=
  have hv1 : fresh4.Valid := by norm_num [Valid, fresh4]
  have hv2 : fresh4.addMissing.Valid := by norm_num [Valid, fresh4, addMissing]
  have hb : fresh4.buckets = fresh4.addMissing.buckets := rfl
  ⟨hv1, hv2, hb, by norm_num [fresh4, addMissing],
    print_depends_on_buckets_only fresh4 fresh4.addMissing hv1 hv2 hb []⟩

end Histogram

/-! ### Modulus by zero in `fillRandom` -/

/-- The conversion to `int` commutes with negation. -/
theorem doubleToInt_neg (x : ℚ) : doubleToInt (-x) = -doubleToInt x := by
  unfold doubleToInt
  rw [Rat.neg_num, Rat.neg_den, Int.neg_tdiv]

/-- The conversion to `int` gives zero exactly on the open interval `(-1, 1)`. -/
theorem doubleToInt_eq_zero_iff (x : ℚ) : doubleToInt x = 0 ↔ (-1 < x ∧ x < 1) := by
  rcases le_or_lt 0 x with hx | hx
  · rw [doubleToInt_of_nonneg hx, Int.floor_eq_zero_iff, Set.mem_Ico]
    constructor
    · rintro ⟨-, h1⟩
      exact ⟨by linarith, h1⟩
    · rintro ⟨-, h1⟩
      exact ⟨hx, h1⟩
  · have hneg : doubleToInt x = -doubleToInt (-x) := by rw [doubleToInt_neg, neg_neg]
    rw [hneg, neg_eq_zero, doubleToInt_of_nonneg (by linarith), Int.floor_eq_zero_iff,
      Set.mem_Ico]
    constructor
    · rintro ⟨-, h1⟩
      exact ⟨by linarith, by linarith⟩
    · rintro ⟨h0, -⟩
      exact ⟨by linarith, by linarith⟩

/-- A loop whose body aborts with `e` at every index and state aborts with `e` as soon
as it has one iteration. -/
theorem forLoop_error {σ : Type} (n : Nat) (body : Nat → σ → Except Failure σ)
    (e : Failure) (s : σ) (hb : ∀ i t, body i t = .error e) :
    forLoop (n + 1) body s = .error e := by
  induction n with
  | zero =>
    rw [forLoop_succ, forLoop_zero]
    exact hb 0 s
  | succ n ih =>
    rw [forLoop_succ, ih]
    rfl

/-! ### The throughput figure of `main` -/

/-- The printed figure is one hundredth of the elements processed per microsecond. -/
theorem reportedThroughput_eq (duration : Int) :
    reportedThroughput duration = 104857600 / (duration : ℚ) ∧
      (elementsProcessed : ℚ) / (duration : ℚ) = 100 * reportedThroughput duration := by
  unfold reportedThroughput elementsProcessed dataSize mega passes
  constructor
  · norm_num
  · push_cast
    ring

/-- C15. For a measured duration of 1000000 microseconds `main` prints 104.8576, the
element count of one pass divided by the duration, while the 100 timed passes processed
10485760000 elements, which is 10485.76 per microsecond. -/
theorem reportedThroughput_counts_one_pass :
    reportedThroughput 1000000 = 1048576 / 10000 ∧
      (elementsProcessed : ℚ) / (1000000 : ℚ) = 1048576 / 100 ∧
      reportedThroughput 1000000 ≠ (elementsProcessed : ℚ) / (1000000 : ℚ) := by
  unfold reportedThroughput elementsProcessed dataSize mega passes
  norm_num

namespace Histogram

/-! ### Order independence -/

end Histogram

namespace Histogram

end Histogram

namespace Histogram

/-- Below `INT_MAX` the 32-bit increment of a non-negative counter is `+ 1`. -/
theorem incr32_of_lt (c : Int) (h0 : 0 ≤ c) (h1 : c < 2147483647) : incr32 c = c + 1 := by
  unfold incr32 wrapInt32
  omega

/-- Wrapping before an increment does not change the wrapped result. -/
theorem incr32_wrap (x : Int) : incr32 (wrapInt32 x) = wrapInt32 (x + 1) := by
  unfold incr32 wrapInt32
  omega

end Histogram

/-! ### The run of `main` -/

/-- Counting over `M` full periods of length `m` a property of the residue modulo `m`. -/
theorem countP_range_mul (q : Nat → Bool) (m M : Nat) :
    (List.range (m * M)).countP (fun i => q (i % m)) = M * (List.range m).countP q := by
  induction M with
  | zero => simp
  | succ M ih =>
    rw [Nat.mul_succ, List.range_add, List.countP_append, ih, List.countP_map, Nat.succ_mul]
    congr 1
    apply List.countP_congr
    intro r hr
    have hlt : r < m := List.mem_range.mp hr
    simp only [Function.comp_apply, Nat.mul_add_mod, Nat.mod_eq_of_lt hlt]

/-- On `Histogram(40, 0, 100)` the index of an integer value `r` is `40 * r / 100` in
integer division. -/
theorem floor_scaled_main (r : Nat) :
    ⌊(((40 : Int) : ℚ)) * ((r : ℚ) - 0) / ((100 : ℚ) - 0)⌋ =
      ((40 * r / 100 : Nat) : Int) := by
  have e : (((40 : Int) : ℚ)) * ((r : ℚ) - 0) / ((100 : ℚ) - 0) =
      (((40 * r : Nat) : Int) : ℚ) / ((100 : Nat) : ℚ) := by
    push_cast
    ring
  rw [e, Rat.floor_intCast_div_natCast]
  norm_cast

/-- Among the values `0..99`, three have an even index `b < 40` and two an odd one. -/
theorem countP_slot (b : Nat) (hb : b < 40) :
    (List.range 100).countP (fun r => decide (40 * r / 100 = b)) =
      if b % 2 = 0 then 3 else 2 := by
  interval_cases b <;> decide

/-- Number of indices below `100 * 1048576` whose value `i mod 100` has index `b`. -/
theorem countP_slot_full (b : Nat) (hb : b < 40) :
    (List.range 104857600).countP (fun i => decide (40 * (i % 100) / 100 = b)) =
      1048576 * (if b % 2 = 0 then 3 else 2) := by
  have h := countP_range_mul (fun r => decide (40 * r / 100 = b)) 100 1048576
  rw [countP_slot b hb] at h
  exact h

/-- Counting over a prefix of the indices gives at most the count over all of them. -/
theorem countP_range_le (p : Nat → Bool) (j n : Nat) (hj : j ≤ n) :
    (List.range j).countP p ≤ (List.range n).countP p :=
  List.Sublist.countP_le p (List.range_sublist.mpr hj)

/-- A completed fold of `add` raises the total by the number of values. -/
theorem total_fold_add (vs : List ℚ) (h h' : Histogram)
    (hok : vs.foldlM Histogram.add h = .ok h') :
    h'.total = h.total + vs.length := by
  induction vs generalizing h with
  | nil =>
    simp only [List.foldlM_nil] at hok
    cases hok
    simp
  | cons v t ih =>
    simp only [List.foldlM_cons] at hok
    cases hstep : h.add v with
    | error e =>
      rw [hstep] at hok
      cases hok
    | ok h1 =>
      rw [hstep] at hok
      rw [ih h1 hok, Histogram.total_add h h1 v hstep]
      simp only [List.length_cons, Nat.cast_add, Nat.cast_one]
      ring

/-- Binning the first `j` elements of a column holding the ramp `i mod 100` into a valid
histogram with the parameters of `Histogram(40, 0, 100)`. -/
theorem pass_loop (c : DoubleColumn) (n : Nat)
    (hdata : ∀ i, i < n → c.data[i]? = some ((i % 100 : Nat) : ℚ))
    (h : Histogram) (hv : h.Valid) (hbc : h.bucketCount = 40) (hmin : h.min = 0)
    (hmax : h.max = 100) (j : Nat) (hj : j ≤ n) :
    ∃ h1, forLoop j (DoubleColumn.histogramStep c) h = .ok h1 ∧ h1.Valid ∧
      h1.bucketCount = 40 ∧ h1.min = 0 ∧ h1.max = 100 ∧
      h1.outOfBounds = h.outOfBounds ∧ h1.missing = h.missing ∧
      ∀ b, b < 40 → ∃ c0 : Int, h.buckets[b]? = some c0 ∧
        h1.buckets[b]? = some (c0 +
          (((List.range j).countP (fun i => decide (40 * (i % 100) / 100 = b)) : Nat) :
            Int)) := by
  have hin : ∀ i, i < j →
      h.min ≤ ((i % 100 : Nat) : ℚ) ∧ ((i % 100 : Nat) : ℚ) < h.max := by
    intro i _
    rw [hmin, hmax]
    refine ⟨by positivity, ?_⟩
    have : i % 100 < 100 := Nat.mod_lt i (by decide)
    exact_mod_cast this
  obtain ⟨h1, hrun, hv1, hbc1, hmin1, hmax1, hoob, hmiss, -, hcnt⟩ :=
    DoubleColumn.histogram_loop c h hv (fun i => ((i % 100 : Nat) : ℚ)) j
      (fun i hi => hdata i (lt_of_lt_of_le hi hj)) hin
  have hlen : h.buckets.length = 40 := by
    have := hv.2.2.2.2
    omega
  refine ⟨h1, hrun, hv1, hbc1.trans hbc, hmin1.trans hmin, hmax1.trans hmax, hoob, hmiss, ?_⟩
  intro b hb
  obtain ⟨c0, hc0, hc1⟩ := hcnt b (by omega)
  refine ⟨c0, hc0, ?_⟩
  rw [hc1]
  congr 3
  apply List.countP_congr
  intro i _
  rw [hbc, hmin, hmax, floor_scaled_main (i % 100)]
  simp only [decide_eq_true_eq]
  exact ⟨fun hx => by exact_mod_cast hx, fun hx => by exact_mod_cast hx⟩

/-- State after `p` full passes over a column of `100 * 1048576` elements holding the
ramp `i mod 100`, starting from a valid all-zero histogram with the parameters of
`Histogram(40, 0, 100)`. -/
theorem passes_loop (c : DoubleColumn) (hsize : c.size = 104857600)
    (hdata : ∀ i, i < 104857600 → c.data[i]? = some ((i % 100 : Nat) : ℚ))
    (h0 : Histogram) (hv : h0.Valid) (hbc : h0.bucketCount = 40) (hmin : h0.min = 0)
    (hmax : h0.max = 100) (hoob : h0.outOfBounds = 0) (hmiss : h0.missing = 0)
    (hzero : ∀ b, b < 40 → h0.buckets[b]? = some 0) (p : Nat) :
    ∃ hp, forLoop p (fun _ h => c.histogram h) h0 = .ok hp ∧ hp.Valid ∧
      hp.bucketCount = 40 ∧ hp.min = 0 ∧ hp.max = 100 ∧
      hp.outOfBounds = 0 ∧ hp.missing = 0 ∧
      ∀ b, b < 40 → hp.buckets[b]? =
        some ((p : Int) * (1048576 * (if b % 2 = 0 then 3 else 2) : Nat)) := by
  induction p with
  | zero =>
    refine ⟨h0, forLoop_zero _ h0, hv, hbc, hmin, hmax, hoob, hmiss, fun b hb => ?_⟩
    rw [hzero b hb]
    simp
  | succ p ih =>
    obtain ⟨hp, hrun, hvp, hbcp, hminp, hmaxp, hoobp, hmissp, hcntp⟩ := ih
    obtain ⟨h1, hstep, hv1, hbc1, hmin1, hmax1, hoob1, hmiss1, hcnt1⟩ :=
      pass_loop c 104857600 hdata hp hvp hbcp hminp hmaxp 104857600 le_rfl
    refine ⟨h1, ?_, hv1, hbc1, hmin1, hmax1, hoob1.trans hoobp, hmiss1.trans hmissp,
      fun b hb => ?_⟩
    · rw [forLoop_succ, hrun]
      show c.histogram hp = _
      unfold DoubleColumn.histogram
      rw [hsize]
      exact hstep
    · obtain ⟨c0, hc0, hc1⟩ := hcnt1 b hb
      rw [hcntp b hb] at hc0
      cases hc0
      rw [hc1, countP_slot_full b hb]
      refine congrArg some ?_
      push_cast
      ring

/-- Completed passes over a valid column raise the total by the column length each. -/
theorem passes_total (c : DoubleColumn) (hc : c.Valid) (h0 : Histogram) (p : Nat)
    (hp : Histogram) (hrun : forLoop p (fun _ h => c.histogram h) h0 = .ok hp) :
    hp.total = h0.total + (p : Int) * (c.data.length : Int) := by
  induction p generalizing hp with
  | zero =>
    rw [forLoop_zero] at hrun
    cases hrun
    simp
  | succ p ih =>
    rw [forLoop_succ] at hrun
    cases hprev : forLoop p (fun _ h => c.histogram h) h0 with
    | error e =>
      rw [hprev] at hrun
      cases hrun
    | ok h1 =>
      rw [hprev] at hrun
      have hstep : c.histogram h1 = .ok hp := hrun
      rw [DoubleColumn.histogram_eq_fold c hc h1] at hstep
      rw [total_fold_add c.data h1 hp hstep, ih h1 hprev]
      push_cast
      ring

/-- Sequencing after a completed step continues with its result. -/
theorem bind_ok {α β : Type} (a : α) (f : α → Except Failure β) :
    (Except.ok a : Except Failure α).bind f = f a :=
  rfl

/-- Once the allocations and the fill have completed, `main` is the timed loop. -/
theorem main_eq (initial : Nat → ℚ) (data filled : DoubleColumn) (h0 : Histogram)
    (hnew : DoubleColumn.new (dataSize * mega) initial = .ok data)
    (hfill : data.fillRandom 0 100 = .ok filled) (hh0 : Histogram.new 40 0 100 = .ok h0) :
    main initial = forLoop passes (fun _ h => filled.histogram h) h0 := by
  unfold main
  rewrite [hnew, bind_ok, hfill, bind_ok, hh0, bind_ok]
  exact Eq.refl _

/-- C17. In the configuration of `main` (a column of `100 * 1024 * 1024` elements
filled with `fillRandom(0, 100)`, binned 100 times into `Histogram(40, 0, 100)`) the
run completes; the final state has `314572800` in every even bucket and `209715200` in
every odd bucket, `outOfBounds = 0`, `missing = 0`, and accounts for all
`100 * 104857600` elements.  At every point of the timed loop (after `p < 100` full
passes and `j` further elements) no `add` has aborted or counted out of range, and
every counter lies between 0 and `2^31 - 1`. -/
theorem main_final_state (initial : Nat → ℚ) :
    ∃ data filled h0 h,
      DoubleColumn.new (dataSize * mega) initial = .ok data ∧
      data.fillRandom 0 100 = .ok filled ∧
      Histogram.new 40 0 100 = .ok h0 ∧
      main initial = .ok h ∧
      h.buckets.length = 40 ∧
      (∀ b, b < 40 →
        h.buckets[b]? = some (if b % 2 = 0 then 314572800 else 209715200)) ∧
      h.outOfBounds = 0 ∧ h.missing = 0 ∧ h.total = elementsProcessed ∧
      ∀ p j, p < passes → j ≤ 104857600 →
        ∃ hs, (forLoop p (fun _ s => filled.histogram s) h0).bind
            (forLoop j filled.histogramStep) = .ok hs ∧
          hs.outOfBounds = 0 ∧ hs.missing = 0 ∧
          ∀ c ∈ hs.buckets, 0 ≤ c ∧ c ≤ 2147483647 := by
  have hsz : dataSize * mega = 104857600 := by
    unfold dataSize mega
    norm_num
  -- the column
  have hnew : ∃ data, DoubleColumn.new (dataSize * mega) initial = .ok data := by
    unfold DoubleColumn.new
    rw [hsz, if_neg (by norm_num)]
    exact ⟨_, rfl⟩
  obtain ⟨data, hnew⟩ := hnew
  obtain ⟨hdv, hdsize⟩ := DoubleColumn.column_valid_of_new _ initial data hnew
  rw [hsz] at hdsize
  -- the fill
  obtain ⟨filled, hfill, hfsize, hflen, hramp⟩ :=
    DoubleColumn.fillRandom_effect data hdv 0 100 (by norm_num)
  have hfsize' : filled.size = 104857600 := hfsize.trans hdsize
  have hfv : filled.Valid := ⟨by rw [hfsize']; norm_num, by rw [hflen, hfsize]; exact hdv.2⟩
  have hflen' : (filled.data.length : Int) = 104857600 := by rw [← hfsize']; exact hfv.2
  have hfloor : ⌊(100 : ℚ) - 0⌋ = 100 := by
    rw [sub_zero]
    exact Int.floor_natCast 100
  have hdata : ∀ i, i < 104857600 → filled.data[i]? = some ((i % 100 : Nat) : ℚ) := by
    intro i hi
    obtain ⟨x, hx, hval, -, -⟩ := hramp i (by rw [hdsize]; exact_mod_cast hi)
    rw [hx, hval, hfloor, zero_add]
    norm_cast
  -- the histogram
  have hh0 := Histogram.new_eq_ok 40 0 100 (by norm_num) (by norm_num) (by norm_num)
  obtain ⟨hv0, hbc0, hmin0, hmax0⟩ := Histogram.valid_of_new _ _ _ _ hh0
  have hzero : ∀ b, b < 40 →
      (⟨List.replicate (40 : Int).toNat 0, 40, 0, 100, 100 - 0, 0, 0⟩ : Histogram).buckets[b]? =
        some 0 := by
    intro b hb
    show (List.replicate (40 : Int).toNat (0 : Int))[b]? = some 0
    rw [List.getElem?_replicate, if_pos (by simpa using hb)]
  have hloop := passes_loop filled hfsize' hdata _ hv0 hbc0 hmin0 hmax0 rfl rfl hzero
  obtain ⟨h, hrun, hvh, hbch, -, -, hoobh, hmissh, hcnth⟩ := hloop passes
  have hmain : main initial = .ok h := by
    rw [main_eq initial data filled _ hnew hfill hh0]
    exact hrun
  have hlen40 : ∀ s : Histogram, s.Valid → s.bucketCount = 40 → s.buckets.length = 40 := by
    intro s hs hb
    have := hs.2.2.2.2
    omega
  refine ⟨data, filled, _, h, hnew, hfill, hh0, hmain, hlen40 h hvh hbch, ?_, hoobh, hmissh,
    ?_, ?_⟩
  · intro b hb
    rw [hcnth b hb]
    refine congrArg some ?_
    unfold passes
    split_ifs <;> norm_num
  · rw [passes_total filled hfv _ passes h hrun, hflen', Histogram.total_of_new _ _ _ _ hh0]
    unfold elementsProcessed passes dataSize mega
    norm_num
  · intro p j hp hj
    obtain ⟨s, hps, hvs, hbcs, hmins, hmaxs, hoobs, hmisss, hcnts⟩ := hloop p
    obtain ⟨hs, hjs, hvhs, hbchs, -, -, hoobhs, hmisshs, hcnths⟩ :=
      pass_loop filled 104857600 hdata s hvs hbcs hmins hmaxs j hj
    refine ⟨hs, ?_, hoobhs.trans hoobs, hmisshs.trans hmisss, ?_⟩
    · rw [hps]
      exact hjs
    · intro c hc
      obtain ⟨b, hbc⟩ := List.mem_iff_getElem?.mp hc
      have hb : b < 40 := by
        by_contra hge
        rw [List.getElem?_eq_none (by rw [hlen40 hs hvhs hbchs]; omega)] at hbc
        cases hbc
      obtain ⟨c0, hc0, hc1⟩ := hcnths b hb
      rw [hcnts b hb] at hc0
      cases hc0
      rw [hc1] at hbc
      cases hbc
      have hle := countP_range_le (fun i => decide (40 * (i % 100) / 100 = b)) j 104857600 hj
      rw [countP_slot_full b hb] at hle
      have hp' : p < 100 := hp
      generalize (List.range j).countP (fun i => decide (40 * (i % 100) / 100 = b)) = x at hle ⊢
      split_ifs at hle ⊢ <;> push_cast <;> omega


/-! ## The machine model: theorems -/

set_option maxRecDepth 100000

/-- Below `INT_MAX` the 32-bit increment of a 32-bit value is `+ 1`. -/
theorem incr32_eq (c : Int) (h0 : -2147483648 ≤ c) (h1 : c < 2147483647) :
    incr32 c = c + 1 := by
  unfold incr32 wrapInt32
  omega

/-- At `INT_MAX` the 32-bit increment gives `INT_MIN`. -/
theorem incr32_max : incr32 2147483647 = -2147483648 := by
  unfold incr32 wrapInt32
  omega

/-- A 32-bit value is not changed by storing it. -/
theorem wrapInt32_eq (c : Int) (h0 : -2147483648 ≤ c) (h1 : c ≤ 2147483647) :
    wrapInt32 c = c := by
  unfold wrapInt32
  omega

/-- An integer rounds to itself. -/
theorem roundHalfEven_intCast (n : Int) : roundHalfEven (n : ℚ) = n := by
  unfold roundHalfEven
  rw [Int.floor_intCast, sub_self, if_pos (by norm_num)]

/-- A non-negative number rounds to a non-negative integer. -/
theorem roundHalfEven_nonneg (x : ℚ) (hx : 0 ≤ x) : 0 ≤ roundHalfEven x := by
  have hf : 0 ≤ ⌊x⌋ := Int.floor_nonneg.mpr hx
  unfold roundHalfEven
  split_ifs <;> omega

/-- Zero is a double. -/
theorem round64_zero : round64 0 = .finite 0 := by
  unfold round64
  rw [if_pos rfl]

/-- The double nearest to a non-negative number is not negative. -/
theorem round64_nonneg (q : ℚ) (hq : 0 ≤ q) : (round64 q).ge (.finite 0) = true := by
  unfold round64
  split_ifs with h0 h1 h2
  · simp [Double.ge, Double.le]
  · have hr : 0 ≤ roundHalfEven (q / 2 ^ (max (binade q) (-1022) - 52)) :=
      roundHalfEven_nonneg _ (div_nonneg hq (zpow_nonneg (by norm_num) _))
    have hr' : (0 : ℚ) ≤ (roundHalfEven (q / 2 ^ (max (binade q) (-1022) - 52)) : ℚ) := by
      exact_mod_cast hr
    simp only [Double.ge, Double.le, decide_eq_true_eq]
    exact mul_nonneg hr' (zpow_nonneg (by norm_num) _)
  · rfl
  · exact absurd (lt_of_le_of_ne hq (Ne.symm h0)) h2

/-- Repeated 32-bit increments of a stored value add up modulo 2^32. -/
theorem iterate_incr32_wrap (n : Nat) (x : Int) :
    incr32^[n] (wrapInt32 x) = wrapInt32 (x + n) := by
  induction n with
  | zero => simp
  | succ n ih =>
    rw [Function.iterate_succ_apply', ih]
    unfold incr32 wrapInt32
    push_cast
    omega

/-- Repeated 32-bit increments of a 32-bit value. -/
theorem iterate_incr32 (n : Nat) (c : Int) (hc : isInt32 c) :
    incr32^[n] c = wrapInt32 (c + n) := by
  have h := iterate_incr32_wrap n c
  rwa [wrapInt32_eq c hc.1 hc.2] at h

/-- A 32-bit increment gives a 32-bit value. -/
theorem isInt32_incr32 (c : Int) : isInt32 (incr32 c) := by
  unfold isInt32 incr32 wrapInt32
  omega

/-- A stored value is a 32-bit value. -/
theorem isInt32_wrapInt32 (c : Int) : isInt32 (wrapInt32 c) := by
  unfold isInt32 wrapInt32
  omega

namespace Machine

namespace Histogram

/-- The effect of `add` on a value that fails the bounds test. -/
theorem add_outside (h : Histogram) (v : Double) (ho : h.isOutOfBounds v = true) :
    h.add v = .ok { h with outOfBounds := incr32 h.outOfBounds } := by
  unfold add
  rw [if_pos ho]

/-- The effect of `add` on a value that passes the bounds test and both assertions. -/
theorem add_inside (h : Histogram) (v : Double) (ho : h.isOutOfBounds v = false)
    (h0 : 0 ≤ h.bucketIndex v) (h1 : h.bucketIndex v < h.bucketCount) (c : Int)
    (hc : h.buckets[(h.bucketIndex v).toNat]? = some c) :
    h.add v =
      .ok { h with buckets := h.buckets.set (h.bucketIndex v).toNat (incr32 c) } := by
  unfold add
  rw [if_neg (by simp [ho]), if_neg (by simpa using h0), if_neg (by simpa using h1), hc]

/-- The bounds test reads `min` and `max` only. -/
theorem isOutOfBounds_congr (h1 h2 : Histogram) (v : Double) (hmin : h1.min = h2.min)
    (hmax : h1.max = h2.max) : h1.isOutOfBounds v = h2.isOutOfBounds v := by
  unfold isOutOfBounds
  rw [hmin, hmax]

/-- The index reads `bucketCount`, `min`, `max` and `range` only. -/
theorem bucketIndex_congr (h1 h2 : Histogram) (v : Double)
    (hc : h1.bucketCount = h2.bucketCount) (hmin : h1.min = h2.min)
    (hmax : h1.max = h2.max) (hr : h1.range = h2.range) :
    h1.bucketIndex v = h2.bucketIndex v := by
  unfold bucketIndex
  rw [hc, hmin, hmax, hr]

/-- A run of no calls. -/
theorem run_nil (h : Histogram) : run h [] = .ok h := rfl

/-- A run starts with its first call. -/
theorem run_cons (h : Histogram) (a : Call) (calls : List Call) :
    run h (a :: calls) = (call h a).bind (fun h1 => run h1 calls) := by
  unfold run
  rw [List.foldlM_cons]
  rfl

/-- Repeating a call whose effect is one 32-bit increment of a counter `x`, in a family
of states `f x` that differ in this counter only. -/
theorem run_replicate (f : Int → Histogram) (a : Call)
    (hstep : ∀ x, call (f x) a = .ok (f (incr32 x))) (n : Nat) (x : Int) :
    run (f x) (List.replicate n a) = .ok (f (incr32^[n] x)) := by
  induction n generalizing x with
  | zero => rfl
  | succ n ih =>
    rw [List.replicate_succ, run_cons, hstep x]
    show run (f (incr32 x)) (List.replicate n a) = _
    rw [ih (incr32 x), Function.iterate_succ_apply]

/-- Repeating `add(5)` on `Histogram(1, 5, 5)`. -/
theorem repeat_add_single (n : Nat) :
    run fresh1 (List.replicate n (.add (.finite 5))) =
      .ok { fresh1 with buckets := [wrapInt32 n] } := by
  have hstep : ∀ x : Int, call { fresh1 with buckets := [x] } (.add (.finite 5)) =
      .ok { fresh1 with buckets := [incr32 x] } := by
    intro x
    have ho : fresh1.isOutOfBounds (.finite 5) = false := by decide!
    have hi : fresh1.bucketIndex (.finite 5) = 0 := by decide!
    have h := add_inside { fresh1 with buckets := [x] } (.finite 5) ho
      (by rw [show Histogram.bucketIndex { fresh1 with buckets := [x] }
        (.finite 5) = 0 from hi])
      (by rw [show Histogram.bucketIndex { fresh1 with buckets := [x] }
        (.finite 5) = 0 from hi]; exact (show (0 : Int) < 1 by decide)) x
      (by rw [show Histogram.bucketIndex { fresh1 with buckets := [x] }
        (.finite 5) = 0 from hi]; rfl)
    rw [show Histogram.bucketIndex { fresh1 with buckets := [x] }
        (.finite 5) = 0 from hi] at h
    exact h
  have h := run_replicate (fun x => { fresh1 with buckets := [x] })
    (.add (.finite 5)) hstep n 0
  rw [iterate_incr32 n 0 (by decide), zero_add] at h
  exact h

/-- Repeating `addMissing()` on `Histogram(4, 0, 100)`. -/
theorem repeat_addMissing (n : Nat) :
    run fresh4 (List.replicate n .addMissing) =
      .ok { fresh4 with missing := wrapInt32 n } := by
  have h := run_replicate (fun x => { fresh4 with missing := x }) .addMissing
    (fun x => rfl) n 0
  rw [iterate_incr32 n 0 (by decide), zero_add] at h
  exact h

/-- Repeating `add(-1)` on `Histogram(4, 0, 100)`. -/
theorem repeat_add_outside (n : Nat) :
    run fresh4 (List.replicate n (.add (.finite (-1)))) =
      .ok { fresh4 with outOfBounds := wrapInt32 n } := by
  have h := run_replicate (fun x => { fresh4 with outOfBounds := x })
    (.add (.finite (-1)))
    (fun x => add_outside _ _ (show fresh4.isOutOfBounds (.finite (-1)) = true by decide!))
    n 0
  rw [iterate_incr32 n 0 (by decide), zero_add] at h
  exact h

/-! ### Claims on single calls -/

/-- C14. On `Histogram(4, 0, 100)`, `add(NaN)`: both comparisons `NaN < min` and
`NaN <= max` are false, the bounds test of line 31 lets the value through, the
conversion of the NaN quotient to `int` gives `INT_MIN`, and the program's own
`assert(bucketIndex >= 0)` on line 39 fails: `outOfBounds` is not incremented. -/
theorem add_nan_fails_index_assertion :
    Histogram.new 4 (.finite 0) (.finite 100) = .ok fresh4 ∧
      Double.lt .nan (.finite 0) = false ∧ Double.le .nan (.finite 100) = false ∧
      fresh4.isOutOfBounds .nan = false ∧ fresh4.bucketIndex .nan = -2147483648 ∧
      fresh4.add .nan = .error .assertIndexNonneg := by
  decide!

/-- C18. On `Histogram(2, -2^1023, 2^1023)` the width `max - min` overflows to
infinity.  For `v = min` and `w = 0`, with `min <= v <= w < max`, the index computed
for `v` is 0 while the quotient computed for `w` is `inf / inf = NaN`, whose
conversion gives `INT_MIN`: the program's own `assert(bucketIndex >= 0)` on line 39
fails on `add(w)`, and the index for `w` is below the one for `v`. -/
theorem bucketIndex_fails_on_overflowing_range :
    Histogram.new 2 (.finite (-2 ^ 1023)) (.finite (2 ^ 1023)) = .ok freshWide ∧
      round64 (2 ^ 1023) = .finite (2 ^ 1023) ∧
      round64 (-2 ^ 1023) = .finite (-2 ^ 1023) ∧
      freshWide.max.gt freshWide.min = true ∧
      Double.le freshWide.min (.finite (-2 ^ 1023)) = true ∧
      Double.le (.finite (-2 ^ 1023)) (.finite 0) = true ∧
      Double.lt (.finite 0) freshWide.max = true ∧
      freshWide.bucketIndex (.finite (-2 ^ 1023)) = 0 ∧
      freshWide.bucketIndex (.finite 0) = -2147483648 ∧
      freshWide.add (.finite 0) = .error .assertIndexNonneg := by
  decide!

/-- The difference of two ordered bounds is not negative, except that it is NaN when
both are the same infinity. -/
theorem range_ge_zero_iff (mn mx : Double) (hge : mx.ge mn = true) :
    (mx.sub mn).ge (.finite 0) = false ↔
      (mn = .posInf ∧ mx = .posInf) ∨ (mn = .negInf ∧ mx = .negInf) := by
  cases mn with
  | finite a =>
    cases mx with
    | finite b =>
      have hab : a ≤ b := by simpa [Double.ge, Double.le] using hge
      have h := round64_nonneg (b + -a) (by linarith)
      simp only [Double.sub, Double.neg, Double.add, h]
      simp
    | posInf => simp [Double.sub, Double.neg, Double.add, Double.ge, Double.le]
    | negInf => simp [Double.ge, Double.le] at hge
    | nan => simp [Double.ge, Double.le] at hge
  | posInf =>
    cases mx with
    | finite b => simp [Double.ge, Double.le] at hge
    | posInf => simp [Double.sub, Double.neg, Double.add, Double.ge, Double.le]
    | negInf => simp [Double.ge, Double.le] at hge
    | nan => simp [Double.ge, Double.le] at hge
  | negInf =>
    cases mx with
    | finite b => simp [Double.sub, Double.neg, Double.add, Double.ge, Double.le]
    | posInf => simp [Double.sub, Double.neg, Double.add, Double.ge, Double.le]
    | negInf => simp [Double.sub, Double.neg, Double.add, Double.ge, Double.le]
    | nan => simp [Double.ge, Double.le] at hge
  | nan =>
    cases mx <;> simp [Double.ge, Double.le] at hge

/-- C5, the claim as stated fails: `Histogram(1, +inf, +inf)` has `bucketCount > 0`,
`max >= min` and `bucketCount == 1`, yet `range = inf - inf` is NaN and construction
aborts on `assert(range >= 0)` (line 21). -/
theorem new_aborts_on_equal_infinite_bounds :
    (1 : Int) > 0 ∧ Double.posInf.ge .posInf = true ∧
      (Double.posInf.eq .posInf = true → (1 : Int) = 1) ∧
      Double.posInf.sub .posInf = .nan ∧
      Histogram.new 1 .posInf .posInf = .error .assertRangeNonneg := by
  decide!

/-- C5, amended.  Construction succeeds exactly when `bucketCount > 0`, `max >= min`,
`max - min >= 0` and (`max == min` implies `bucketCount == 1`); among ordered bounds the
third condition fails exactly when `min` and `max` are the same infinity.  On success all
`bucketCount` bucket counts, `outOfBounds` and `missing` are 0; when a condition is
violated construction aborts on one of the four assertions. -/
theorem new_succeeds_iff_range_nonneg (bc : Int) (mn mx : Double) :
    ((∃ h, Histogram.new bc mn mx = .ok h) ↔
      (0 < bc ∧ mx.ge mn = true ∧ (mx.sub mn).ge (.finite 0) = true ∧
        (mx.eq mn = true → bc = 1))) ∧
    (mx.ge mn = true → ((mx.sub mn).ge (.finite 0) = false ↔
      (mn = .posInf ∧ mx = .posInf) ∨ (mn = .negInf ∧ mx = .negInf))) ∧
    (∀ h, Histogram.new bc mn mx = .ok h →
      h.buckets = List.replicate bc.toNat 0 ∧ (h.buckets.length : Int) = bc ∧
        (∀ c ∈ h.buckets, c = 0) ∧ h.outOfBounds = 0 ∧ h.missing = 0 ∧
        h.bucketCount = bc ∧ h.min = mn ∧ h.max = mx ∧ h.range = mx.sub mn) ∧
    (¬ (0 < bc ∧ mx.ge mn = true ∧ (mx.sub mn).ge (.finite 0) = true ∧
        (mx.eq mn = true → bc = 1)) →
      ∃ e, Histogram.new bc mn mx = .error e ∧
        (e = .assertBucketCountPos ∨ e = .assertMaxGeMin ∨ e = .assertRangeNonneg ∨
          e = .assertSingleBucket)) := by
  refine ⟨?_, range_ge_zero_iff mn mx, ?_, ?_⟩
  · constructor
    · rintro ⟨h, hn⟩
      unfold Histogram.new at hn
      split_ifs at hn with h1 h2 h3 h4
      refine ⟨by simpa using h1, by simpa using h2, by simpa using h3, ?_⟩
      intro he
      by_contra hne
      exact h4 ⟨he, hne⟩
    · rintro ⟨h1, h2, h3, h4⟩
      unfold Histogram.new
      rw [if_neg (by simpa using h1), if_neg (by simp [h2]), if_neg (by simp [h3]),
        if_neg (by rintro ⟨he, hne⟩; exact hne (h4 he))]
      exact ⟨_, rfl⟩
  · intro h hn
    unfold Histogram.new at hn
    split_ifs at hn with h1 h2 h3 h4
    cases hn
    have hpos : 0 < bc := by simpa using h1
    refine ⟨rfl, ?_, ?_, rfl, rfl, rfl, rfl, rfl, rfl⟩
    · simp only [List.length_replicate]
      omega
    · intro c hc
      exact (List.eq_of_mem_replicate hc)
  · intro hnot
    unfold Histogram.new
    by_cases h1 : bc > 0
    · rw [if_neg (not_not_intro h1)]
      by_cases h2 : mx.ge mn = true
      · rw [if_neg (not_not_intro h2)]
        by_cases h3 : (mx.sub mn).ge (.finite 0) = true
        · rw [if_neg (not_not_intro h3)]
          by_cases h4 : mx.eq mn = true ∧ ¬ (bc = 1)
          · rw [if_pos h4]
            exact ⟨_, rfl, Or.inr (Or.inr (Or.inr rfl))⟩
          · exfalso
            apply hnot
            refine ⟨h1, h2, h3, ?_⟩
            intro he
            by_contra hne
            exact h4 ⟨he, hne⟩
        · rw [if_pos h3]
          exact ⟨_, rfl, Or.inr (Or.inr (Or.inl rfl))⟩
      · rw [if_pos h2]
        exact ⟨_, rfl, Or.inr (Or.inl rfl)⟩
    · rw [if_pos h1]
      exact ⟨_, rfl, Or.inl rfl⟩

/-- C7, the claim as stated fails: 2147483647 calls of `addMissing()` on
`Histogram(4, 0, 100)` lead to `missing = INT_MAX`, and one more call leaves
`missing = INT_MIN`, which is not `missing + 1`. -/
theorem addMissing_wraps_at_int_max :
    run fresh4 (List.replicate 2147483647 .addMissing) = .ok fullMissing ∧
      fullMissing.missing = 2147483647 ∧
      fullMissing.addMissing.missing = -2147483648 ∧
      fullMissing.addMissing.missing ≠ fullMissing.missing + 1 := by
  exact ⟨repeat_addMissing 2147483647, rfl, by decide!, by decide!⟩

/-- C7, amended.  `addMissing()` increments `missing` by 1 modulo 2^32: by exactly 1
when `missing` is below `INT_MAX` (and to `INT_MIN` at `INT_MAX`); every bucket count,
`outOfBounds`, `bucketCount`, `min`, `max` and `range` are unchanged. -/
theorem addMissing_increments_modulo (h : Histogram) (hm : isInt32 h.missing) :
    h.addMissing.missing = incr32 h.missing ∧
      (h.missing < 2147483647 → h.addMissing.missing = h.missing + 1) ∧
      (h.missing = 2147483647 → h.addMissing.missing = -2147483648) ∧
      h.addMissing.buckets = h.buckets ∧ h.addMissing.outOfBounds = h.outOfBounds ∧
      h.addMissing.bucketCount = h.bucketCount ∧ h.addMissing.min = h.min ∧
      h.addMissing.max = h.max ∧ h.addMissing.range = h.range := by
  refine ⟨rfl, ?_, ?_, rfl, rfl, rfl, rfl, rfl, rfl⟩
  · intro hlt
    exact incr32_eq h.missing hm.1 hlt
  · intro he
    show incr32 h.missing = -2147483648
    rw [he]
    exact incr32_max

/-- C7 amended, instantiated on `Histogram(4, 0, 100)`. -/
theorem addMissing_increments_modulo_witness :
    isInt32 fresh4.missing ∧ fresh4.addMissing.missing = incr32 fresh4.missing ∧
      (fresh4.missing < 2147483647 → fresh4.addMissing.missing = fresh4.missing + 1) ∧
      (fresh4.missing = 2147483647 → fresh4.addMissing.missing = -2147483648) ∧
      fresh4.addMissing.buckets = fresh4.buckets ∧
      fresh4.addMissing.outOfBounds = fresh4.outOfBounds ∧
      fresh4.addMissing.bucketCount = fresh4.bucketCount ∧
      fresh4.addMissing.min = fresh4.min ∧
      fresh4.addMissing.max = fresh4.max ∧ fresh4.addMissing.range = fresh4.range :=
  ⟨by decide, addMissing_increments_modulo fresh4 (by decide)⟩

end Histogram

end Machine

namespace Machine

namespace Histogram

/-- The constructor establishes the representation invariant. -/
theorem machine_valid_of_new (bc : Int) (mn mx : Double) (h : Histogram)
    (hn : Histogram.new bc mn mx = .ok h) : h.Valid := by
  unfold Histogram.new at hn
  split_ifs at hn with h1 h2 h3 h4
  cases hn
  have hpos : 0 < bc := by simpa using h1
  refine ⟨hpos, by simpa using h2, rfl, by simpa using h3, ?_, ?_, ?_,
    (show isInt32 0 by decide), (show isInt32 0 by decide)⟩
  · intro he
    by_contra hne
    exact h4 ⟨he, hne⟩
  · simp only [List.length_replicate]
    omega
  · intro c hc
    rw [List.eq_of_mem_replicate hc]
    decide

/-- A finite value between finite bounds passes the bounds test. -/
theorem isOutOfBounds_finite (h : Histogram) (a b x : ℚ) (hmin : h.min = .finite a)
    (hmax : h.max = .finite b) :
    h.isOutOfBounds (.finite x) = decide (x < a ∨ b < x) := by
  unfold isOutOfBounds
  rw [hmin, hmax]
  simp [Double.lt, Double.gt]

/-- C4, the claim as stated fails: 2147483647 calls of `add(-1)` on
`Histogram(4, 0, 100)` lead to `outOfBounds = INT_MAX`, and one more `add(-1)`, with
`-1 < min`, leaves `outOfBounds = INT_MIN`, which is not `outOfBounds + 1`. -/
theorem add_out_of_range_wraps_at_int_max :
    run fresh4 (List.replicate 2147483647 (.add (.finite (-1)))) = .ok fullOutOfBounds ∧
      fullOutOfBounds.Valid ∧ Double.lt (.finite (-1)) fullOutOfBounds.min = true ∧
      fullOutOfBounds.outOfBounds = 2147483647 ∧
      fullOutOfBounds.add (.finite (-1)) =
        .ok { fullOutOfBounds with outOfBounds := -2147483648 } ∧
      (-2147483648 : Int) ≠ fullOutOfBounds.outOfBounds + 1 := by
  exact ⟨repeat_add_outside 2147483647, by decide!, by decide!, rfl, by decide!, by decide!⟩

/-- C4, amended.  In a valid state, for a value `v` with `v < min` or `v > max`,
`add(v)` completes and increments `outOfBounds` by 1 modulo 2^32: by exactly 1 when
`outOfBounds` is below `INT_MAX` (and to `INT_MIN` at `INT_MAX`); every bucket count
and the `missing` counter are unchanged. -/
theorem add_out_of_range_increments_modulo (h : Histogram) (hv : h.Valid) (v : Double)
    (ho : v.lt h.min = true ∨ v.gt h.max = true) :
    ∃ h1, h.add v = .ok h1 ∧ h1.outOfBounds = incr32 h.outOfBounds ∧
      (h.outOfBounds < 2147483647 → h1.outOfBounds = h.outOfBounds + 1) ∧
      (h.outOfBounds = 2147483647 → h1.outOfBounds = -2147483648) ∧
      h1.buckets = h.buckets ∧ h1.missing = h.missing ∧
      h1.bucketCount = h.bucketCount ∧ h1.min = h.min ∧ h1.max = h.max ∧
      h1.range = h.range := by
  have hout : h.isOutOfBounds v = true := by
    unfold isOutOfBounds
    rcases ho with ho | ho <;> simp [ho]
  refine ⟨_, add_outside h v hout, rfl, ?_, ?_, rfl, rfl, rfl, rfl, rfl, rfl⟩
  · intro hlt
    exact incr32_eq h.outOfBounds hv.2.2.2.2.2.2.2.1.1 hlt
  · intro he
    show incr32 h.outOfBounds = -2147483648
    rw [he]
    exact incr32_max

/-- C4 amended, instantiated on `Histogram(4, 0, 100)` and `add(-1)`. -/
theorem add_out_of_range_increments_modulo_witness :
    fresh4.Valid ∧ (Double.lt (.finite (-1)) fresh4.min = true ∨
      Double.gt (.finite (-1)) fresh4.max = true) ∧
    ∃ h1, fresh4.add (.finite (-1)) = .ok h1 ∧ h1.outOfBounds = incr32 fresh4.outOfBounds ∧
      (fresh4.outOfBounds < 2147483647 → h1.outOfBounds = fresh4.outOfBounds + 1) ∧
      (fresh4.outOfBounds = 2147483647 → h1.outOfBounds = -2147483648) ∧
      h1.buckets = fresh4.buckets ∧ h1.missing = fresh4.missing ∧
      h1.bucketCount = fresh4.bucketCount ∧ h1.min = fresh4.min ∧ h1.max = fresh4.max ∧
      h1.range = fresh4.range :=
  ⟨by decide!, by decide!,
    add_out_of_range_increments_modulo fresh4 (by decide!) (.finite (-1)) (by decide!)⟩

/-- The difference of a finite double with itself is zero. -/
theorem sub_self_finite (m : ℚ) : (Double.finite m).sub (.finite m) = .finite 0 := by
  simp only [Double.sub, Double.neg, Double.add, add_neg_cancel, round64_zero]

/-- C8, the claim as stated fails.  On `Histogram(1, 5, 5)` the value NaN, which is
not 5, passes the bounds test and `add(NaN)` increments bucket 0, not `outOfBounds`.
For `m = -inf` the construction `Histogram(1, m, m)` aborts on `assert(range >= 0)`.
And after 2147483647 calls of `add(5)` on `Histogram(1, 5, 5)` one more `add(5)` leaves
bucket 0 at `INT_MIN`. -/
theorem degenerate_bucket_takes_nan :
    Histogram.new 1 (.finite 5) (.finite 5) = .ok fresh1 ∧
      Double.nan ≠ .finite 5 ∧ fresh1.isOutOfBounds .nan = false ∧
      fresh1.add .nan = .ok { fresh1 with buckets := [1] } ∧
      Histogram.new 1 .negInf .negInf = .error .assertRangeNonneg ∧
      run fresh1 (List.replicate 2147483647 (.add (.finite 5))) = .ok fullSingle ∧
      fullSingle.add (.finite 5) = .ok { fullSingle with buckets := [-2147483648] } := by
  exact ⟨by decide!, by decide!, by decide!, by decide!, by decide!,
    repeat_add_single 2147483647, by decide!⟩

/-- C8, amended.  For every finite `m`, `Histogram(1, m, m)` constructs successfully;
in a valid state with `min = max = m`, `range <= 0` holds, so `add(m)` takes index 0
without evaluating the division, and increments bucket 0 by 1 modulo 2^32 (by exactly
1 below `INT_MAX`); any other value that is not NaN increments `outOfBounds` by 1 modulo
2^32 (by exactly 1 below `INT_MAX`) and touches no bucket. -/
theorem degenerate_single_bucket_finite (m : ℚ) (h : Histogram) (hv : h.Valid)
    (hmin : h.min = .finite m) (hmax : h.max = .finite m) :
    Histogram.new 1 (.finite m) (.finite m) =
        .ok ⟨[0], 1, .finite m, .finite m, .finite 0, 0, 0⟩ ∧
      h.bucketCount = 1 ∧ h.range.le (.finite 0) = true ∧ h.bucketIndex (.finite m) = 0 ∧
      (∃ c, h.buckets = [c] ∧ h.add (.finite m) = .ok { h with buckets := [incr32 c] } ∧
        (c < 2147483647 → incr32 c = c + 1)) ∧
      ∀ v : Double, v ≠ .nan → v ≠ .finite m →
        h.add v = .ok { h with outOfBounds := incr32 h.outOfBounds } ∧
          (h.outOfBounds < 2147483647 → incr32 h.outOfBounds = h.outOfBounds + 1) := by
  have hbc : h.bucketCount = 1 := by
    apply hv.2.2.2.2.1
    rw [hmin, hmax]
    simp [Double.eq]
  have hr : h.range = .finite 0 := by
    rw [hv.2.2.1, hmin, hmax]
    exact sub_self_finite m
  have hrle : h.range.le (.finite 0) = true := by
    rw [hr]
    simp [Double.le]
  have hidx : ∀ v, h.bucketIndex v = 0 := by
    intro v
    unfold bucketIndex
    rw [if_pos hrle]
  have hlen : h.buckets.length = 1 := by
    have := hv.2.2.2.2.2.1
    omega
  obtain ⟨c, hc⟩ := List.length_eq_one.mp hlen
  have hc32 : isInt32 c := hv.2.2.2.2.2.2.1 c (by rw [hc]; exact List.mem_singleton_self c)
  refine ⟨?_, hbc, hrle, hidx _, ⟨c, hc, ?_, fun hlt => incr32_eq c hc32.1 hlt⟩, ?_⟩
  · unfold Histogram.new
    rw [if_neg (by decide), if_neg (by simp [Double.ge, Double.le]),
      if_neg (by rw [sub_self_finite]; simp [Double.ge, Double.le]),
      if_neg (by simp), sub_self_finite]
    rfl
  · have ho : h.isOutOfBounds (.finite m) = false := by
      rw [isOutOfBounds_finite h m m m hmin hmax]
      simp
    have hadd := add_inside h (.finite m) ho (by rw [hidx]) (by rw [hidx, hbc]; decide) c
      (by rw [hidx, hc]; rfl)
    rw [hadd, hidx, hc]
    rfl
  · intro v hnan hne
    have ho : h.isOutOfBounds v = true := by
      unfold isOutOfBounds
      rw [hmin, hmax]
      cases v with
      | finite x =>
        have hx : x ≠ m := fun he => hne (by rw [he])
        rcases lt_or_gt_of_ne hx with hlt | hgt
        · simp [Double.lt, Double.gt, hlt]
        · simp [Double.lt, Double.gt, hgt]
      | posInf => simp [Double.lt, Double.gt]
      | negInf => simp [Double.lt, Double.gt]
      | nan => exact absurd rfl hnan
    exact ⟨add_outside h v ho, fun hlt => incr32_eq _ hv.2.2.2.2.2.2.2.1.1 hlt⟩

/-- C8 amended, instantiated on `Histogram(1, 5, 5)`. -/
theorem degenerate_single_bucket_finite_witness :
    fresh1.Valid ∧ fresh1.min = .finite 5 ∧ fresh1.max = .finite 5 ∧
    Histogram.new 1 (.finite 5) (.finite 5) =
        .ok ⟨[0], 1, .finite 5, .finite 5, .finite 0, 0, 0⟩ ∧
      fresh1.bucketCount = 1 ∧ fresh1.range.le (.finite 0) = true ∧
      fresh1.bucketIndex (.finite 5) = 0 ∧
      (∃ c, fresh1.buckets = [c] ∧
        fresh1.add (.finite 5) = .ok { fresh1 with buckets := [incr32 c] } ∧
        (c < 2147483647 → incr32 c = c + 1)) ∧
      ∀ v : Double, v ≠ .nan → v ≠ .finite 5 →
        fresh1.add v = .ok { fresh1 with outOfBounds := incr32 fresh1.outOfBounds } ∧
          (fresh1.outOfBounds < 2147483647 →
            incr32 fresh1.outOfBounds = fresh1.outOfBounds + 1) :=
  ⟨by decide!, rfl, rfl, degenerate_single_bucket_finite 5 fresh1 (by decide!) rfl rfl⟩

end Histogram

end Machine

/-- Replacing one entry of a list of integers changes the sum by the difference. -/
theorem sum_set_eq (l : List Int) (i : Nat) (c d : Int) (hc : l[i]? = some c) :
    (l.set i d).sum = l.sum + (d - c) := by
  induction l generalizing i with
  | nil => simp at hc
  | cons a t ih =>
    cases i with
    | zero =>
      simp at hc
      subst hc
      simp [List.set]
      ring
    | succ k =>
      simp at hc
      simp [List.set, ih k hc]
      ring

namespace Machine

namespace Histogram

/-- The two ways in which `add` completes. -/
theorem add_cases (h h1 : Histogram) (v : Double) (hok : h.add v = .ok h1) :
    (h.isOutOfBounds v = true ∧ h1 = { h with outOfBounds := incr32 h.outOfBounds }) ∨
    (h.isOutOfBounds v = false ∧ 0 ≤ h.bucketIndex v ∧ h.bucketIndex v < h.bucketCount ∧
      ∃ c, h.buckets[(h.bucketIndex v).toNat]? = some c ∧
        h1 = { h with buckets := h.buckets.set (h.bucketIndex v).toNat (incr32 c) }) := by
  cases ho : h.isOutOfBounds v with
  | true =>
    rw [add_outside h v ho] at hok
    cases hok
    exact Or.inl ⟨rfl, rfl⟩
  | false =>
    right
    unfold add at hok
    rw [if_neg (by simp [ho])] at hok
    by_cases h0 : h.bucketIndex v ≥ 0
    · rw [if_neg (not_not_intro h0)] at hok
      by_cases h1' : h.bucketIndex v < h.bucketCount
      · rw [if_neg (not_not_intro h1')] at hok
        cases hget : h.buckets[(h.bucketIndex v).toNat]? with
        | none =>
          rw [hget] at hok
          cases hok
        | some c =>
          rw [hget] at hok
          cases hok
          exact ⟨rfl, h0, h1', c, rfl, rfl⟩
      · rw [if_pos h1'] at hok
        cases hok
    · rw [if_pos h0] at hok
      cases hok

/-- A call changes no parameter and no allocation. -/
theorem call_params (h h1 : Histogram) (a : Call) (hok : call h a = .ok h1) :
    h1.bucketCount = h.bucketCount ∧ h1.min = h.min ∧ h1.max = h.max ∧
      h1.range = h.range ∧ h1.buckets.length = h.buckets.length := by
  cases a with
  | addMissing =>
    cases hok
    exact ⟨rfl, rfl, rfl, rfl, rfl⟩
  | add v =>
    rcases add_cases h h1 v hok with ⟨_, he⟩ | ⟨_, _, _, c, _, he⟩
    · rw [he]
      exact ⟨rfl, rfl, rfl, rfl, rfl⟩
    · rw [he]
      exact ⟨rfl, rfl, rfl, rfl, by simp⟩

/-- The counting predicates read the parameters only. -/
theorem hits_congr (h h1 : Histogram) (hc : h1.bucketCount = h.bucketCount)
    (hmin : h1.min = h.min) (hmax : h1.max = h.max) (hr : h1.range = h.range) :
    hitsOutOfBounds h1 = hitsOutOfBounds h ∧ ∀ j, hitsBucket h1 j = hitsBucket h j := by
  constructor
  · funext a
    cases a with
    | addMissing => rfl
    | add v => exact isOutOfBounds_congr h1 h v hmin hmax
  · intro j
    funext a
    cases a with
    | addMissing => rfl
    | add v =>
      show (!h1.isOutOfBounds v && decide (h1.bucketIndex v = (j : Int))) =
        (!h.isOutOfBounds v && decide (h.bucketIndex v = (j : Int)))
      rw [isOutOfBounds_congr h1 h v hmin hmax, bucketIndex_congr h1 h v hc hmin hmax hr]

/-- The effect of one completed call on every counter: the counter that the call hits
is incremented modulo 2^32, every other counter is unchanged. -/
theorem call_effect (h h1 : Histogram) (a : Call) (hok : call h a = .ok h1) :
    (∀ j c, h.buckets[j]? = some c →
      h1.buckets[j]? = some (if hitsBucket h j a then incr32 c else c)) ∧
    h1.outOfBounds = (if hitsOutOfBounds h a then incr32 h.outOfBounds else h.outOfBounds) ∧
    h1.missing = (if hitsMissing a then incr32 h.missing else h.missing) := by
  cases a with
  | addMissing =>
    cases hok
    refine ⟨?_, rfl, rfl⟩
    intro j c hc
    simpa [hitsBucket, addMissing] using hc
  | add v =>
    rcases add_cases h h1 v hok with ⟨ho, he⟩ | ⟨ho, h0, _, c, hc, he⟩
    · rw [he]
      refine ⟨?_, by simp [hitsOutOfBounds, ho], by simp [hitsMissing]⟩
      intro j c hc
      simpa [hitsBucket, ho] using hc
    · rw [he]
      refine ⟨?_, by simp [hitsOutOfBounds, ho], by simp [hitsMissing]⟩
      intro j c2 hc2
      have hjlt : j < h.buckets.length := by
        by_contra hge
        rw [List.getElem?_eq_none (by omega)] at hc2
        cases hc2
      by_cases hj : h.bucketIndex v = (j : Int)
      · have hij : (h.bucketIndex v).toNat = j := by omega
        rw [hij] at hc
        rw [hc] at hc2
        cases hc2
        simp [hitsBucket, ho, hj, hij, List.getElem?_set, hjlt]
      · have hij : (h.bucketIndex v).toNat ≠ j := by omega
        simp [hitsBucket, ho, hj, hij, List.getElem?_set, hc2]

/-- A completed call keeps the representation invariant. -/
theorem machine_valid_call (h h1 : Histogram) (a : Call) (hv : h.Valid)
    (hok : call h a = .ok h1) : h1.Valid := by
  obtain ⟨v1, v2, v3, v4, v5, v6, v7, v8, v9⟩ := hv
  cases a with
  | addMissing =>
    cases hok
    exact ⟨v1, v2, v3, v4, v5, v6, v7, v8, isInt32_incr32 _⟩
  | add v =>
    rcases add_cases h h1 v hok with ⟨_, he⟩ | ⟨_, _, _, c, _, he⟩
    · rw [he]
      exact ⟨v1, v2, v3, v4, v5, v6, v7, isInt32_incr32 _, v9⟩
    · rw [he]
      refine ⟨v1, v2, v3, v4, v5, by simpa using v6, ?_, v8, v9⟩
      intro c2 hc2
      rcases List.mem_or_eq_of_mem_set hc2 with hm | he2
      · exact v7 c2 hm
      · rw [he2]
        exact isInt32_incr32 _

/-- After a completed run every counter has been incremented modulo 2^32 once per call
that hit it. -/
theorem run_counts (calls : List Call) (h h1 : Histogram) (hok : run h calls = .ok h1) :
    (∀ j c, h.buckets[j]? = some c →
      h1.buckets[j]? = some (incr32^[calls.countP (hitsBucket h j)] c)) ∧
    h1.outOfBounds = incr32^[calls.countP (hitsOutOfBounds h)] h.outOfBounds ∧
    h1.missing = incr32^[calls.countP hitsMissing] h.missing ∧
    h1.bucketCount = h.bucketCount ∧ h1.min = h.min ∧ h1.max = h.max ∧
    h1.range = h.range ∧ h1.buckets.length = h.buckets.length := by
  induction calls generalizing h with
  | nil =>
    cases hok
    exact ⟨fun j c hc => by simpa using hc, rfl, rfl, rfl, rfl, rfl, rfl, rfl⟩
  | cons a rest ih =>
    rw [run_cons] at hok
    cases hcall : call h a with
    | error e =>
      rw [hcall] at hok
      cases hok
    | ok h2 =>
      rw [hcall] at hok
      obtain ⟨p1, p2, p3, p4, p5⟩ := call_params h h2 a hcall
      obtain ⟨e1, e2, e3⟩ := call_effect h h2 a hcall
      obtain ⟨i1, i2, i3, i4, i5, i6, i7, i8⟩ := ih h2 hok
      obtain ⟨g1, g2⟩ := hits_congr h h2 p1 p2 p3 p4
      refine ⟨?_, ?_, ?_, i4.trans p1, i5.trans p2, i6.trans p3, i7.trans p4, i8.trans p5⟩
      · intro j c hc
        rw [i1 j _ (e1 j c hc), g2 j, List.countP_cons]
        by_cases hb : hitsBucket h j a = true
        · rw [if_pos hb, if_pos hb, Function.iterate_succ_apply]
        · rw [if_neg hb, if_neg hb]
          rfl
      · rw [i2, e2, g1, List.countP_cons]
        by_cases hb : hitsOutOfBounds h a = true
        · rw [if_pos hb, if_pos hb, Function.iterate_succ_apply]
        · rw [if_neg hb, if_neg hb]
          rfl
      · rw [i3, e3, List.countP_cons]
        by_cases hb : hitsMissing a = true
        · rw [if_pos hb, if_pos hb, Function.iterate_succ_apply]
        · rw [if_neg hb, if_neg hb]
          rfl

/-- The state produced by the constructor. -/
theorem new_fields (bc : Int) (mn mx : Double) (h : Histogram)
    (hn : Histogram.new bc mn mx = .ok h) :
    h.buckets = List.replicate bc.toNat 0 ∧ h.outOfBounds = 0 ∧ h.missing = 0 ∧
      h.bucketCount = bc := by
  unfold Histogram.new at hn
  split_ifs at hn
  cases hn
  exact ⟨rfl, rfl, rfl, rfl⟩

/-- A fresh histogram accounts for no value. -/
theorem total_new (bc : Int) (mn mx : Double) (h : Histogram)
    (hn : Histogram.new bc mn mx = .ok h) : h.total = 0 := by
  obtain ⟨hb, ho, hm, _⟩ := new_fields bc mn mx h hn
  unfold total
  rw [hb, ho, hm]
  simp

/-- A completed call whose counter is below `INT_MAX` adds one to the total. -/
theorem total_call (h h1 : Histogram) (a : Call) (hv : h.Valid) (hok : call h a = .ok h1)
    (hb : ∀ j c, h.buckets[j]? = some c → hitsBucket h j a = true → c < 2147483647)
    (ho : hitsOutOfBounds h a = true → h.outOfBounds < 2147483647)
    (hm : hitsMissing a = true → h.missing < 2147483647) :
    h1.total = h.total + 1 := by
  cases a with
  | addMissing =>
    cases hok
    unfold total addMissing
    rw [incr32_eq h.missing hv.2.2.2.2.2.2.2.2.1 (hm rfl)]
    ring
  | add v =>
    rcases add_cases h h1 v hok with ⟨hout, he⟩ | ⟨hout, h0, _, c, hc, he⟩
    · rw [he]
      unfold total
      show h.buckets.sum + incr32 h.outOfBounds + h.missing = _
      rw [incr32_eq h.outOfBounds hv.2.2.2.2.2.2.2.1.1 (ho hout)]
      ring
    · rw [he]
      unfold total
      show (h.buckets.set (h.bucketIndex v).toNat (incr32 c)).sum + h.outOfBounds +
        h.missing = _
      have hc32 : isInt32 c := hv.2.2.2.2.2.2.1 c (List.getElem?_mem hc)
      have hlt : c < 2147483647 := by
        apply hb (h.bucketIndex v).toNat c hc
        have hcast : h.bucketIndex v = (((h.bucketIndex v).toNat : Nat) : Int) := by omega
        simp only [hitsBucket, hout, Bool.not_false, Bool.true_and, decide_eq_true_eq]
        exact hcast
      rw [sum_set_eq _ _ c _ hc, incr32_eq c hc32.1 hlt]
      ring

/-- A completed run in which no counter is taken beyond `INT_MAX` adds its length to
the total. -/
theorem total_run (calls : List Call) (h h1 : Histogram) (hv : h.Valid)
    (hok : run h calls = .ok h1)
    (hb : ∀ (j : Nat) (c : Int), h.buckets[j]? = some c →
      c + (calls.countP (hitsBucket h j) : Int) ≤ 2147483647)
    (ho : h.outOfBounds + (calls.countP (hitsOutOfBounds h) : Int) ≤ 2147483647)
    (hm : h.missing + (calls.countP hitsMissing : Int) ≤ 2147483647) :
    h1.total = h.total + calls.length := by
  induction calls generalizing h with
  | nil =>
    cases hok
    simp
  | cons a rest ih =>
    rw [run_cons] at hok
    cases hcall : call h a with
    | error e =>
      rw [hcall] at hok
      cases hok
    | ok h2 =>
      rw [hcall] at hok
      obtain ⟨p1, p2, p3, p4, p5⟩ := call_params h h2 a hcall
      obtain ⟨e1, e2, e3⟩ := call_effect h h2 a hcall
      obtain ⟨g1, g2⟩ := hits_congr h h2 p1 p2 p3 p4
      have hv2 := machine_valid_call h h2 a hv hcall
      have hbelow : ∀ j c, h.buckets[j]? = some c → hitsBucket h j a = true →
          c < 2147483647 := by
        intro j c hc hhit
        have := hb j c hc
        rw [List.countP_cons, if_pos hhit] at this
        push_cast at this
        omega
      have hobelow : hitsOutOfBounds h a = true → h.outOfBounds < 2147483647 := by
        intro hhit
        rw [List.countP_cons, if_pos hhit] at ho
        push_cast at ho
        omega
      have hmbelow : hitsMissing a = true → h.missing < 2147483647 := by
        intro hhit
        rw [List.countP_cons, if_pos hhit] at hm
        push_cast at hm
        omega
      have hstep := total_call h h2 a hv hcall hbelow hobelow hmbelow
      have hrest := ih h2 hv2 hok ?_ ?_ ?_
      · rw [hrest, hstep, List.length_cons]
        push_cast
        ring
      · intro j c2 hc2
        have hjlt : j < h.buckets.length := by
          by_contra hge
          rw [List.getElem?_eq_none (by omega)] at hc2
          cases hc2
        have hc : h.buckets[j]? = some h.buckets[j] := List.getElem?_eq_getElem hjlt
        have hc32 : isInt32 h.buckets[j] := hv.2.2.2.2.2.2.1 _ (List.getElem_mem hjlt)
        have hbud := hb j _ hc
        rw [e1 j _ hc] at hc2
        rw [g2 j]
        rw [List.countP_cons] at hbud
        by_cases hhit : hitsBucket h j a = true
        · rw [if_pos hhit] at hc2 hbud
          have := incr32_eq _ hc32.1 (hbelow j _ hc hhit)
          cases hc2
          push_cast at hbud
          omega
        · rw [if_neg hhit] at hc2 hbud
          cases hc2
          simpa using hbud
      · rw [e2, g1]
        rw [List.countP_cons] at ho
        by_cases hhit : hitsOutOfBounds h a = true
        · rw [if_pos hhit] at ho ⊢
          have := incr32_eq _ hv.2.2.2.2.2.2.2.1.1 (hobelow hhit)
          push_cast at ho
          omega
        · rw [if_neg hhit] at ho ⊢
          simpa using ho
      · rw [e3]
        rw [List.countP_cons] at hm
        by_cases hhit : hitsMissing a = true
        · rw [if_pos hhit] at hm ⊢
          have := incr32_eq _ hv.2.2.2.2.2.2.2.2.1 (hmbelow hhit)
          push_cast at hm
          omega
        · rw [if_neg hhit] at hm ⊢
          simpa using hm

/-- After a completed run on a fresh histogram every counter holds, as a 32-bit value,
the number of calls that hit it. -/
theorem fresh_run_counts (bc : Int) (mn mx : Double) (h0 : Histogram)
    (hn : Histogram.new bc mn mx = .ok h0) (calls : List Call) (h1 : Histogram)
    (hrun : run h0 calls = .ok h1) :
    (∀ j c, h1.buckets[j]? = some c → c = wrapInt32 (calls.countP (hitsBucket h0 j))) ∧
    h1.outOfBounds = wrapInt32 (calls.countP (hitsOutOfBounds h0)) ∧
    h1.missing = wrapInt32 (calls.countP hitsMissing) := by
  obtain ⟨hb, ho, hm, _⟩ := new_fields bc mn mx h0 hn
  obtain ⟨r1, r2, r3, _, _, _, _, r8⟩ := run_counts calls h0 h1 hrun
  refine ⟨?_, ?_, ?_⟩
  · intro j c hc
    have hjlt : j < h0.buckets.length := by
      by_contra hge
      rw [List.getElem?_eq_none (by omega)] at hc
      cases hc
    have h0j : h0.buckets[j]? = some 0 := by
      rw [List.getElem?_eq_getElem hjlt]
      congr 1
      have hmem : h0.buckets[j] ∈ List.replicate bc.toNat (0 : Int) :=
        hb ▸ List.getElem_mem hjlt
      exact List.eq_of_mem_replicate hmem
    rw [r1 j 0 h0j] at hc
    cases hc
    rw [iterate_incr32 _ 0 (by decide), zero_add]
  · rw [r2, ho, iterate_incr32 _ 0 (by decide), zero_add]
  · rw [r3, hm, iterate_incr32 _ 0 (by decide), zero_add]

/-- A completed run keeps the representation invariant. -/
theorem machine_valid_run (calls : List Call) (h h1 : Histogram) (hv : h.Valid)
    (hok : run h calls = .ok h1) : h1.Valid := by
  induction calls generalizing h with
  | nil =>
    cases hok
    exact hv
  | cons a rest ih =>
    rw [run_cons] at hok
    cases hcall : call h a with
    | error e =>
      rw [hcall] at hok
      cases hok
    | ok h2 =>
      rw [hcall] at hok
      exact ih h2 (machine_valid_call h h2 a hv hcall) hok

/-! ### Claims on call sequences -/

/-- C16, the claim as stated fails: after 2^31 calls of `add(5)`, all in range, on the
single-bucket `Histogram(1, 5, 5)` the bucket count is `INT_MIN`, a negative number. -/
theorem single_bucket_negative_after_overflow :
    Histogram.new 1 (.finite 5) (.finite 5) = .ok fresh1 ∧
      fresh1.isOutOfBounds (.finite 5) = false ∧
      run fresh1 (List.replicate 2147483648 (.add (.finite 5))) =
        .ok { fresh1 with buckets := [-2147483648] } ∧
      (-2147483648 : Int) < 0 :=
  ⟨by decide!, by decide!, repeat_add_single 2147483648, by decide⟩

/-- C16, amended.  After every completed sequence of `add`/`addMissing` calls on a
freshly constructed histogram, each bucket count, `outOfBounds` and `missing` holds the
number of calls that incremented it, modulo 2^32 as a 32-bit signed `int`; a counter
that was incremented at most 2^31 - 1 times holds exactly that number and is
non-negative, whatever the other counters received. -/
theorem counters_count_increments_modulo (bc : Int) (mn mx : Double) (h0 : Histogram)
    (hn : Histogram.new bc mn mx = .ok h0) (calls : List Call) (h1 : Histogram)
    (hrun : run h0 calls = .ok h1) :
    (∀ j c, h1.buckets[j]? = some c →
      c = wrapInt32 (calls.countP (hitsBucket h0 j)) ∧
        (calls.countP (hitsBucket h0 j) ≤ 2147483647 →
          c = (calls.countP (hitsBucket h0 j) : Int) ∧ 0 ≤ c)) ∧
    (h1.outOfBounds = wrapInt32 (calls.countP (hitsOutOfBounds h0)) ∧
      (calls.countP (hitsOutOfBounds h0) ≤ 2147483647 →
        h1.outOfBounds = (calls.countP (hitsOutOfBounds h0) : Int) ∧ 0 ≤ h1.outOfBounds)) ∧
    (h1.missing = wrapInt32 (calls.countP hitsMissing) ∧
      (calls.countP hitsMissing ≤ 2147483647 →
        h1.missing = (calls.countP hitsMissing : Int) ∧ 0 ≤ h1.missing)) := by
  obtain ⟨r1, r2, r3⟩ := fresh_run_counts bc mn mx h0 hn calls h1 hrun
  have key : ∀ (n : Nat) (c : Int), c = wrapInt32 n → n ≤ 2147483647 →
      c = (n : Int) ∧ 0 ≤ c := by
    intro n c hc hle
    rw [hc, wrapInt32_eq (n : Int) (by omega) (by omega)]
    exact ⟨rfl, by omega⟩
  refine ⟨?_, ⟨r2, key _ _ r2⟩, ⟨r3, key _ _ r3⟩⟩
  intro j c hc
  exact ⟨r1 j c hc, key _ _ (r1 j c hc)⟩

/-- C16 amended, instantiated on `Histogram(4, 0, 100)` and the calls `add(30)`,
`add(-1)`, `addMissing()`, `add(30)`. -/
theorem counters_count_increments_modulo_witness :
    Histogram.new 4 (.finite 0) (.finite 100) = .ok fresh4 ∧
    run fresh4 sampleCalls = .ok afterSampleCalls ∧
    (∀ j c, afterSampleCalls.buckets[j]? = some c →
      c = wrapInt32 (sampleCalls.countP (hitsBucket fresh4 j)) ∧
        (sampleCalls.countP (hitsBucket fresh4 j) ≤ 2147483647 →
          c = (sampleCalls.countP (hitsBucket fresh4 j) : Int) ∧ 0 ≤ c)) ∧
    (afterSampleCalls.outOfBounds = wrapInt32 (sampleCalls.countP (hitsOutOfBounds fresh4)) ∧
      (sampleCalls.countP (hitsOutOfBounds fresh4) ≤ 2147483647 →
        afterSampleCalls.outOfBounds = (sampleCalls.countP (hitsOutOfBounds fresh4) : Int) ∧
          0 ≤ afterSampleCalls.outOfBounds)) ∧
    (afterSampleCalls.missing = wrapInt32 (sampleCalls.countP hitsMissing) ∧
      (sampleCalls.countP hitsMissing ≤ 2147483647 →
        afterSampleCalls.missing = (sampleCalls.countP hitsMissing : Int) ∧
          0 ≤ afterSampleCalls.missing)) :=
  ⟨by decide!, by decide!,
    counters_count_increments_modulo 4 (.finite 0) (.finite 100) fresh4 (by decide!)
      sampleCalls afterSampleCalls (by decide!)⟩

/-- C6, the claim as stated fails: 2^31 calls of `addMissing()` on
`Histogram(4, 0, 100)` all complete and leave `missing = INT_MIN`, so the total is
`-2^31` and not the number of calls, `2^31`; the call made at `missing = INT_MAX`
lowers the total by `2^32 - 1` instead of raising it by 1. -/
theorem total_falls_at_counter_overflow :
    run fresh4 (List.replicate 2147483648 .addMissing) =
        .ok { fresh4 with missing := -2147483648 } ∧
      (List.replicate 2147483648 Call.addMissing).length = 2147483648 ∧
      Histogram.total { fresh4 with missing := -2147483648 } = -2147483648 ∧
      run fresh4 (List.replicate 2147483647 .addMissing) = .ok fullMissing ∧
      fullMissing.addMissing.total = fullMissing.total - 4294967295 :=
  ⟨repeat_addMissing 2147483648, List.length_replicate _ _, by decide!,
    repeat_addMissing 2147483647, by decide!⟩

/-- C6, amended.  On a freshly constructed histogram, for a completed sequence of
`add`/`addMissing` calls in which no single counter (a bucket, `outOfBounds` or
`missing`) is incremented more than 2^31 - 1 times: every call of the sequence
increases the total (sum of all bucket counts + `outOfBounds` + `missing`) by exactly
1, and after the `n` calls the total equals `n`. -/
theorem total_counts_calls_within_counter_range (bc : Int) (mn mx : Double)
    (h0 : Histogram) (hn : Histogram.new bc mn mx = .ok h0) (calls : List Call)
    (h1 : Histogram) (hrun : run h0 calls = .ok h1)
    (hb : ∀ j, calls.countP (hitsBucket h0 j) ≤ 2147483647)
    (ho : calls.countP (hitsOutOfBounds h0) ≤ 2147483647)
    (hm : calls.countP hitsMissing ≤ 2147483647) :
    h1.total = calls.length ∧
      ∀ pre a post s s1, calls = pre ++ a :: post → run h0 pre = .ok s →
        call s a = .ok s1 → s1.total = s.total + 1 := by
  have hv0 := machine_valid_of_new bc mn mx h0 hn
  obtain ⟨f1, f2, f3, _⟩ := new_fields bc mn mx h0 hn
  constructor
  · have ht := total_run calls h0 h1 hv0 hrun ?_ ?_ ?_
    · rw [ht, total_new bc mn mx h0 hn, zero_add]
    · intro j c hc
      have hc0 : c = 0 := by
        have hmem : c ∈ List.replicate bc.toNat (0 : Int) := f1 ▸ List.getElem?_mem hc
        exact List.eq_of_mem_replicate hmem
      have := hb j
      rw [hc0]
      omega
    · rw [f2]
      omega
    · rw [f3]
      omega
  · intro pre a post s s1 hsplit hpre hcall
    have hvs := machine_valid_run pre h0 s hv0 hpre
    obtain ⟨r1, r2, r3⟩ := fresh_run_counts bc mn mx h0 hn pre s hpre
    obtain ⟨_, _, _, p1, p2, p3, p4, _⟩ := run_counts pre h0 s hpre
    obtain ⟨g1, g2⟩ := hits_congr h0 s p1 p2 p3 p4
    have hcount : ∀ p : Call → Bool, calls.countP p =
        pre.countP p + ((if p a = true then 1 else 0) + post.countP p) := by
      intro p
      rw [hsplit, List.countP_append, List.countP_cons]
      omega
    apply total_call s s1 a hvs hcall
    · intro j c hc hhit
      rw [g2 j] at hhit
      have h1' := hb j
      rw [hcount, if_pos hhit] at h1'
      rw [r1 j c hc, wrapInt32_eq _ (by omega) (by omega)]
      omega
    · intro hhit
      rw [g1] at hhit
      rw [hcount, if_pos hhit] at ho
      rw [r2, wrapInt32_eq _ (by omega) (by omega)]
      omega
    · intro hhit
      rw [hcount, if_pos hhit] at hm
      rw [r3, wrapInt32_eq _ (by omega) (by omega)]
      omega

/-- C6 amended, instantiated on `Histogram(4, 0, 100)` and the calls `add(30)`,
`add(-1)`, `addMissing()`, `add(30)`. -/
theorem total_counts_calls_within_counter_range_witness :
    Histogram.new 4 (.finite 0) (.finite 100) = .ok fresh4 ∧
    run fresh4 sampleCalls = .ok afterSampleCalls ∧
    (∀ j, sampleCalls.countP (hitsBucket fresh4 j) ≤ 2147483647) ∧
    sampleCalls.countP (hitsOutOfBounds fresh4) ≤ 2147483647 ∧
    sampleCalls.countP hitsMissing ≤ 2147483647 ∧
    afterSampleCalls.total = sampleCalls.length ∧
      ∀ pre a post s s1, sampleCalls = pre ++ a :: post → run fresh4 pre = .ok s →
        call s a = .ok s1 → s1.total = s.total + 1 :=
  have hb : ∀ j, sampleCalls.countP (hitsBucket fresh4 j) ≤ 2147483647 :=
    fun j => le_trans (List.countP_le_length _)
      (show sampleCalls.length ≤ 2147483647 by decide)
  have ho : sampleCalls.countP (hitsOutOfBounds fresh4) ≤ 2147483647 :=
    le_trans (List.countP_le_length _) (show sampleCalls.length ≤ 2147483647 by decide)
  have hm : sampleCalls.countP hitsMissing ≤ 2147483647 :=
    le_trans (List.countP_le_length _) (show sampleCalls.length ≤ 2147483647 by decide)
  ⟨by decide!, by decide!, hb, ho, hm,
    total_counts_calls_within_counter_range 4 (.finite 0) (.finite 100) fresh4 (by decide!)
      sampleCalls afterSampleCalls (by decide!) hb ho hm⟩

end Histogram

end Machine

/-! ### Numbers that binary64 holds exactly -/

/-- The bisection returns the binary exponent. -/
theorem binadeSearch_spec (q : ℚ) (k : Nat) (lo : Int) (h1 : (2 : ℚ) ^ lo ≤ q)
    (h2 : q < (2 : ℚ) ^ (lo + 2 ^ k)) :
    (2 : ℚ) ^ (binadeSearch q k lo) ≤ q ∧ q < (2 : ℚ) ^ (binadeSearch q k lo + 1) := by
  induction k generalizing lo with
  | zero =>
    unfold binadeSearch
    simpa using ⟨h1, h2⟩
  | succ k ih =>
    unfold binadeSearch
    by_cases hc : (2 : ℚ) ^ (lo + 2 ^ k) ≤ q
    · rw [if_pos hc]
      apply ih (lo + 2 ^ k) hc
      have he : lo + 2 ^ k + 2 ^ k = lo + 2 ^ (k + 1) := by
        rw [pow_succ]
        ring
      rw [he]
      exact h2
    · rw [if_neg hc]
      exact ih lo h1 (lt_of_not_le hc)

/-- The binary exponent of a rational of ordinary magnitude. -/
theorem binade_spec (q : ℚ) (hlo : (2 : ℚ) ^ (-2048 : Int) ≤ |q|)
    (hhi : |q| < (2 : ℚ) ^ (2048 : Int)) :
    (2 : ℚ) ^ (binade q) ≤ |q| ∧ |q| < (2 : ℚ) ^ (binade q + 1) := by
  unfold binade
  apply binadeSearch_spec |q| 12 (-2048) hlo
  have he : (-2048 : Int) + 2 ^ 12 = 2048 := by norm_num
  rw [he]
  exact hhi

/-- A rational that is an integer multiple of the spacing of its binade, and below the
overflow threshold, is a double. -/
theorem round64_of_scaled (q : ℚ) (n : Int) (hq : q ≠ 0)
    (hn : q / 2 ^ (max (binade q) (-1022) - 52) = (n : ℚ))
    (hlt : |q| < 2 ^ (1024 : Int)) : round64 q = .finite q := by
  have hne : (2 : ℚ) ^ (max (binade q) (-1022) - 52) ≠ 0 := zpow_ne_zero _ (by norm_num)
  have hprod : (n : ℚ) * 2 ^ (max (binade q) (-1022) - 52) = q := by
    rw [← hn, div_mul_cancel₀ _ hne]
  unfold round64
  rw [if_neg hq, hn, roundHalfEven_intCast, hprod, if_pos hlt]

/-- Every natural number up to 2^53 is a double. -/
theorem round64_natCast (m : Nat) (hm : m ≤ 9007199254740992) :
    round64 (m : ℚ) = .finite (m : ℚ) := by
  rcases Nat.eq_zero_or_pos m with h0 | hpos
  · rw [h0]
    exact round64_zero
  have hq1 : (1 : ℚ) ≤ (m : ℚ) := by exact_mod_cast hpos
  have hq2 : (m : ℚ) ≤ 2 ^ (53 : Int) := by
    have h53 : (2 : ℚ) ^ (53 : Int) = 9007199254740992 := by norm_num
    rw [h53]
    exact_mod_cast hm
  have habs : |(m : ℚ)| = (m : ℚ) := abs_of_nonneg (by linarith)
  have hspec := binade_spec (m : ℚ)
    (by rw [habs]; exact le_trans (zpow_le_one_of_nonpos₀ (by norm_num) (by norm_num)) hq1)
    (by rw [habs]; exact lt_of_le_of_lt hq2 (zpow_lt_zpow_right₀ (by norm_num) (by norm_num)))
  rw [habs] at hspec
  obtain ⟨s1, s2⟩ := hspec
  have hE0 : 0 ≤ binade (m : ℚ) := by
    by_contra hneg
    have hle : binade (m : ℚ) + 1 ≤ 0 := by omega
    have : (2 : ℚ) ^ (binade (m : ℚ) + 1) ≤ 1 := zpow_le_one_of_nonpos₀ (by norm_num) hle
    linarith
  have hE53 : binade (m : ℚ) ≤ 53 := by
    by_contra hbig
    have hlt : (53 : Int) < binade (m : ℚ) := by omega
    have : (2 : ℚ) ^ (53 : Int) < 2 ^ (binade (m : ℚ)) :=
      zpow_lt_zpow_right₀ (by norm_num) hlt
    linarith
  have hmax : max (binade (m : ℚ)) (-1022) = binade (m : ℚ) := max_eq_left (by omega)
  have hm0 : (m : ℚ) ≠ 0 := by linarith
  have hlt1024 : |(m : ℚ)| < 2 ^ (1024 : Int) := by
    rw [habs]
    exact lt_of_le_of_lt hq2 (zpow_lt_zpow_right₀ (by norm_num) (by norm_num))
  by_cases hE : binade (m : ℚ) ≤ 52
  · -- the spacing is at most 1
    obtain ⟨t, ht⟩ : ∃ t : Nat, (t : Int) = 52 - binade (m : ℚ) := ⟨(52 - binade (m : ℚ)).toNat, by omega⟩
    apply round64_of_scaled (m : ℚ) ((m : Int) * 2 ^ t) hm0 _ hlt1024
    rw [hmax]
    have he : binade (m : ℚ) - 52 = -(t : Int) := by omega
    rw [he, zpow_neg, div_inv_eq_mul, zpow_natCast]
    push_cast
    ring
  · -- the binade of 2^53 itself
    have hE' : binade (m : ℚ) = 53 := by omega
    rw [hE'] at s1
    have hmeq : (m : ℚ) = 2 ^ (53 : Int) := le_antisymm hq2 s1
    apply round64_of_scaled (m : ℚ) (2 ^ 52) hm0 _ hlt1024
    rw [hmax, hE', hmeq]
    norm_num

/-- The conversion of an `int` between 0 and 2^31 to `double` is exact. -/
theorem ofInt_natCast (m : Nat) (hm : m ≤ 9007199254740992) :
    Double.ofInt (m : Int) = .finite (m : ℚ) := by
  unfold Double.ofInt
  have h := round64_natCast m hm
  exact_mod_cast h

/-- The rounded integer is at least the floor. -/
theorem floor_le_roundHalfEven (x : ℚ) : ⌊x⌋ ≤ roundHalfEven x := by
  unfold roundHalfEven
  split_ifs <;> omega

/-- The rounded integer is at most the floor plus one. -/
theorem roundHalfEven_le_floor_add_one (x : ℚ) : roundHalfEven x ≤ ⌊x⌋ + 1 := by
  unfold roundHalfEven
  split_ifs <;> omega

/-- Rounding to the nearest integer is monotone. -/
theorem roundHalfEven_mono (x y : ℚ) (hxy : x ≤ y) : roundHalfEven x ≤ roundHalfEven y := by
  have hf : ⌊x⌋ ≤ ⌊y⌋ := Int.floor_mono hxy
  rcases eq_or_lt_of_le hf with heq | hlt
  · unfold roundHalfEven
    rw [← heq]
    split_ifs <;> first | omega | (exfalso; linarith)
  · have h1 := roundHalfEven_le_floor_add_one x
    have h2 := floor_le_roundHalfEven y
    omega

/-- The bisection stays inside its search interval. -/
theorem binadeSearch_range (q : ℚ) (k : Nat) (lo : Int) :
    lo ≤ binadeSearch q k lo ∧ binadeSearch q k lo < lo + 2 ^ k := by
  induction k generalizing lo with
  | zero =>
    unfold binadeSearch
    simp
  | succ k ih =>
    have hpow : (2 : Int) ^ (k + 1) = 2 ^ k + 2 ^ k := by
      rw [pow_succ]
      ring
    have hpos : (0 : Int) < 2 ^ k := by positivity
    unfold binadeSearch
    split_ifs
    · have := ih (lo + 2 ^ k)
      omega
    · have := ih lo
      omega

/-- The bisection is monotone in the number searched for. -/
theorem binadeSearch_mono (q1 q2 : ℚ) (h : q1 ≤ q2) (k : Nat) (lo : Int) :
    binadeSearch q1 k lo ≤ binadeSearch q2 k lo := by
  induction k generalizing lo with
  | zero =>
    unfold binadeSearch
    exact le_refl lo
  | succ k ih =>
    unfold binadeSearch
    by_cases c1 : (2 : ℚ) ^ (lo + 2 ^ k) ≤ q1
    · rw [if_pos c1, if_pos (le_trans c1 h)]
      exact ih (lo + 2 ^ k)
    · rw [if_neg c1]
      by_cases c2 : (2 : ℚ) ^ (lo + 2 ^ k) ≤ q2
      · rw [if_pos c2]
        have r1 := binadeSearch_range q1 k lo
        have r2 := binadeSearch_range q2 k (lo + 2 ^ k)
        omega
      · rw [if_neg c2]
        exact ih lo

/-- The power of two at the exponent found is below the number, as soon as the search
left its lower end or started below the number. -/
theorem binadeSearch_lower (q : ℚ) (k : Nat) (lo : Int)
    (h : (2 : ℚ) ^ lo ≤ q ∨ binadeSearch q k lo ≠ lo) :
    (2 : ℚ) ^ (binadeSearch q k lo) ≤ q := by
  induction k generalizing lo with
  | zero =>
    unfold binadeSearch at h ⊢
    rcases h with h | h
    · exact h
    · exact absurd rfl h
  | succ k ih =>
    unfold binadeSearch at h ⊢
    by_cases c : (2 : ℚ) ^ (lo + 2 ^ k) ≤ q
    · rw [if_pos c]
      exact ih (lo + 2 ^ k) (Or.inl c)
    · rw [if_neg c] at h ⊢
      exact ih lo h

/-- The number is below the next power of two, as soon as the search stayed below its
upper end or started above the number. -/
theorem binadeSearch_upper (q : ℚ) (k : Nat) (lo : Int)
    (h : q < (2 : ℚ) ^ (lo + 2 ^ k) ∨ binadeSearch q k lo + 1 < lo + 2 ^ k) :
    q < (2 : ℚ) ^ (binadeSearch q k lo + 1) := by
  induction k generalizing lo with
  | zero =>
    unfold binadeSearch at h ⊢
    rcases h with h | h
    · simpa using h
    · simp at h
  | succ k ih =>
    have hpow : (2 : Int) ^ (k + 1) = 2 ^ k + 2 ^ k := by
      rw [pow_succ]
      ring
    unfold binadeSearch at h ⊢
    by_cases c : (2 : ℚ) ^ (lo + 2 ^ k) ≤ q
    · rw [if_pos c] at h ⊢
      apply ih (lo + 2 ^ k)
      rcases h with h | h
      · left
        have he : lo + 2 ^ k + 2 ^ k = lo + 2 ^ (k + 1) := by omega
        rw [he]
        exact h
      · right
        omega
    · rw [if_neg c] at h ⊢
      exact ih lo (Or.inl (lt_of_not_le c))

/-- An integer above a number is above its rounding. -/
theorem roundHalfEven_le_of_le (x : ℚ) (n : Int) (h : x ≤ (n : ℚ)) : roundHalfEven x ≤ n := by
  have := roundHalfEven_mono x n h
  rwa [roundHalfEven_intCast] at this

/-- An integer below a number is below its rounding. -/
theorem le_roundHalfEven_of_le (x : ℚ) (n : Int) (h : (n : ℚ) ≤ x) : n ≤ roundHalfEven x := by
  have := roundHalfEven_mono n x h
  rwa [roundHalfEven_intCast] at this

/-- The value of the double nearest to a positive rational, before the overflow test:
the rounded significand times the spacing. -/
theorem round64_pos (q : ℚ) (hq : 0 < q) :
    round64 q =
      if (roundHalfEven (q / 2 ^ (max (binade q) (-1022) - 52)) : ℚ) *
          2 ^ (max (binade q) (-1022) - 52) < 2 ^ (1024 : Int) then
        .finite ((roundHalfEven (q / 2 ^ (max (binade q) (-1022) - 52)) : ℚ) *
          2 ^ (max (binade q) (-1022) - 52))
      else .posInf := by
  have hnn : (0 : ℚ) ≤ (roundHalfEven (q / 2 ^ (max (binade q) (-1022) - 52)) : ℚ) *
      2 ^ (max (binade q) (-1022) - 52) := by
    have h1 : 0 ≤ roundHalfEven (q / 2 ^ (max (binade q) (-1022) - 52)) :=
      roundHalfEven_nonneg _ (div_nonneg hq.le (zpow_nonneg (by norm_num) _))
    have h2 : (0 : ℚ) ≤ (roundHalfEven (q / 2 ^ (max (binade q) (-1022) - 52)) : ℚ) := by
      exact_mod_cast h1
    exact mul_nonneg h2 (zpow_nonneg (by norm_num) _)
  unfold round64
  rw [if_neg hq.ne', abs_of_nonneg hnn]
  split_ifs <;> rfl

/-- The scaled significand of a positive rational in the lower binade stays below the
significand of the next power of two. -/
theorem significand_upper (q : ℚ) (hq : 0 < q) (hb : binade q < 2047) :
    (roundHalfEven (q / 2 ^ (max (binade q) (-1022) - 52)) : ℚ) *
      2 ^ (max (binade q) (-1022) - 52) ≤ 2 ^ (max (binade q) (-1022) + 1) := by
  have hup : q < (2 : ℚ) ^ (binade q + 1) := by
    have := abs_of_pos hq ▸ binadeSearch_upper |q| 12 (-2048) (Or.inr (by
      have he : (-2048 : Int) + 2 ^ 12 = 2048 := by norm_num
      rw [he]
      unfold binade at hb
      omega))
    unfold binade
    rw [abs_of_pos hq]
    exact this
  have hup' : q < (2 : ℚ) ^ (max (binade q) (-1022) + 1) :=
    lt_of_lt_of_le hup (zpow_le_zpow_right₀ (by norm_num) (by omega))
  have hpos : (0 : ℚ) < 2 ^ (max (binade q) (-1022) - 52) := zpow_pos (by norm_num) _
  have hsplit : (2 : ℚ) ^ (max (binade q) (-1022) + 1) =
      ((2 ^ 53 : Int) : ℚ) * 2 ^ (max (binade q) (-1022) - 52) := by
    have he : max (binade q) (-1022) + 1 = 53 + (max (binade q) (-1022) - 52) := by ring
    rw [he, zpow_add₀ (by norm_num)]
    norm_num
  rw [hsplit]
  apply mul_le_mul_of_nonneg_right _ hpos.le
  have hle : q / 2 ^ (max (binade q) (-1022) - 52) ≤ ((2 ^ 53 : Int) : ℚ) := by
    rw [div_le_iff₀ hpos, ← hsplit]
    exact hup'.le
  exact_mod_cast roundHalfEven_le_of_le _ _ hle

/-- The rounded value of a positive rational in a normal binade is at least the power
of two that opens the binade. -/
theorem significand_lower (q : ℚ) (hq : 0 < q) (hb : -1022 ≤ binade q) :
    (2 : ℚ) ^ (binade q) ≤ (roundHalfEven (q / 2 ^ (max (binade q) (-1022) - 52)) : ℚ) *
      2 ^ (max (binade q) (-1022) - 52) := by
  have hlow : (2 : ℚ) ^ (binade q) ≤ q := by
    have := abs_of_pos hq ▸ binadeSearch_lower |q| 12 (-2048) (Or.inr (by
      unfold binade at hb
      omega))
    unfold binade
    rw [abs_of_pos hq]
    exact this
  have hmax : max (binade q) (-1022) = binade q := max_eq_left hb
  rw [hmax]
  have hpos : (0 : ℚ) < 2 ^ (binade q - 52) := zpow_pos (by norm_num) _
  have hsplit : (2 : ℚ) ^ (binade q) = ((2 ^ 52 : Int) : ℚ) * 2 ^ (binade q - 52) := by
    have he : binade q = 52 + (binade q - 52) := by ring
    nth_rewrite 1 [he]
    rw [zpow_add₀ (by norm_num)]
    norm_num
  rw [hsplit]
  apply mul_le_mul_of_nonneg_right _ hpos.le
  have hle : ((2 ^ 52 : Int) : ℚ) ≤ q / 2 ^ (binade q - 52) := by
    rw [le_div_iff₀ hpos, ← hsplit]
    exact hlow
  exact_mod_cast le_roundHalfEven_of_le _ _ hle

/-- The binary exponent is monotone on positive rationals. -/
theorem binade_mono (q1 q2 : ℚ) (h1 : 0 < q1) (h : q1 ≤ q2) : binade q1 ≤ binade q2 := by
  unfold binade
  rw [abs_of_pos h1, abs_of_pos (lt_of_lt_of_le h1 h)]
  exact binadeSearch_mono q1 q2 h 12 _

/-- The binary exponent stays below 2048. -/
theorem binade_le (q : ℚ) : binade q ≤ 2047 := by
  unfold binade
  have := binadeSearch_range |q| 12 (-2048)
  have he : (-2048 : Int) + 2 ^ 12 = 2048 := by norm_num
  omega

/-- The rounded value, before the overflow test, is monotone on positive rationals. -/
theorem rounded_value_mono (q1 q2 : ℚ) (h1 : 0 < q1) (h : q1 ≤ q2) :
    (roundHalfEven (q1 / 2 ^ (max (binade q1) (-1022) - 52)) : ℚ) *
        2 ^ (max (binade q1) (-1022) - 52) ≤
      (roundHalfEven (q2 / 2 ^ (max (binade q2) (-1022) - 52)) : ℚ) *
        2 ^ (max (binade q2) (-1022) - 52) := by
  have h2 : 0 < q2 := lt_of_lt_of_le h1 h
  have hb := binade_mono q1 q2 h1 h
  have hE : max (binade q1) (-1022) ≤ max (binade q2) (-1022) := max_le_max hb (le_refl _)
  rcases eq_or_lt_of_le hE with heq | hlt
  · rw [heq]
    have hpos : (0 : ℚ) < 2 ^ (max (binade q2) (-1022) - 52) := zpow_pos (by norm_num) _
    apply mul_le_mul_of_nonneg_right _ hpos.le
    have hdiv : q1 / 2 ^ (max (binade q2) (-1022) - 52) ≤
        q2 / 2 ^ (max (binade q2) (-1022) - 52) := div_le_div_of_nonneg_right h hpos.le
    exact_mod_cast roundHalfEven_mono _ _ hdiv
  · have hb2 : -1022 ≤ binade q2 := by
      by_contra hneg
      have : max (binade q2) (-1022) = -1022 := max_eq_right (by omega)
      have h3 : -1022 ≤ max (binade q1) (-1022) := le_max_right _ _
      omega
    have hmax2 : max (binade q2) (-1022) = binade q2 := max_eq_left hb2
    have hb1 : binade q1 < 2047 := by
      have := binade_le q2
      have h3 : binade q1 ≤ max (binade q1) (-1022) := le_max_left _ _
      omega
    have hu := significand_upper q1 h1 hb1
    have hl := significand_lower q2 h2 hb2
    have hmid : (2 : ℚ) ^ (max (binade q1) (-1022) + 1) ≤ 2 ^ (binade q2) :=
      zpow_le_zpow_right₀ (by norm_num) (by omega)
    exact le_trans hu (le_trans hmid hl)

/-- Rounding to the nearest double is monotone on non-negative rationals. -/
theorem round64_mono (q1 q2 : ℚ) (h0 : 0 ≤ q1) (h : q1 ≤ q2) :
    (round64 q1).le (round64 q2) = true := by
  rcases eq_or_lt_of_le h0 with hz | h1
  · rw [← hz, round64_zero]
    exact round64_nonneg q2 (le_trans h0 h)
  · have h2 : 0 < q2 := lt_of_lt_of_le h1 h
    have hm := rounded_value_mono q1 q2 h1 h
    rw [round64_pos q1 h1, round64_pos q2 h2]
    split_ifs with c1 c2 c2
    · simpa [Double.le] using hm
    · rfl
    · exfalso
      linarith
    · rfl

/-- Rounding to the nearest integer commutes with negation. -/
theorem roundHalfEven_neg (x : ℚ) : roundHalfEven (-x) = -roundHalfEven x := by
  by_cases hint : x = (⌊x⌋ : ℚ)
  · have h1 : roundHalfEven x = ⌊x⌋ := by
      have := roundHalfEven_intCast ⌊x⌋
      rwa [← hint] at this
    have h2 : roundHalfEven (-x) = -⌊x⌋ := by
      have := roundHalfEven_intCast (-⌊x⌋)
      rw [hint]
      exact_mod_cast this
    rw [h1, h2]
  · have hfl : (⌊x⌋ : ℚ) ≤ x := Int.floor_le x
    have hlt : x < (⌊x⌋ : ℚ) + 1 := Int.lt_floor_add_one x
    have hgt : (⌊x⌋ : ℚ) < x := lt_of_le_of_ne hfl (Ne.symm hint)
    have hneg : ⌊-x⌋ = -⌊x⌋ - 1 := by
      rw [Int.floor_eq_iff]
      push_cast
      constructor <;> linarith
    unfold roundHalfEven
    rw [hneg]
    push_cast
    split_ifs <;> first | omega | (exfalso; linarith)

/-- Rounding to the nearest double commutes with negation. -/
theorem round64_neg (q : ℚ) : round64 (-q) = (round64 q).neg := by
  by_cases hq : q = 0
  · rw [hq, neg_zero, round64_zero]
    simp [Double.neg]
  · have hb : binade (-q) = binade q := by
      unfold binade
      rw [abs_neg]
    have hr : (roundHalfEven (-q / 2 ^ (max (binade q) (-1022) - 52)) : ℚ) =
        -(roundHalfEven (q / 2 ^ (max (binade q) (-1022) - 52)) : ℚ) := by
      rw [neg_div, roundHalfEven_neg]
      push_cast
      rfl
    unfold round64
    rw [if_neg hq, if_neg (neg_ne_zero.mpr hq), hb, hr, neg_mul, abs_neg]
    by_cases hfin : |(roundHalfEven (q / 2 ^ (max (binade q) (-1022) - 52)) : ℚ) *
        2 ^ (max (binade q) (-1022) - 52)| < 2 ^ (1024 : Int)
    · rw [if_pos hfin, if_pos hfin]
      rfl
    · rw [if_neg hfin, if_neg hfin]
      rcases lt_or_gt_of_ne hq with hneg | hpos
      · rw [if_pos (by linarith), if_neg (by linarith)]
        rfl
      · rw [if_neg (by linarith), if_pos hpos]
        rfl

/-- The comparison `<=` of doubles is reversed by negation. -/
theorem le_neg_neg (x y : Double) : (y.neg).le (x.neg) = x.le y := by
  cases x <;> cases y <;> simp [Double.le, Double.neg]

/-- The double nearest to a non-positive number is not positive. -/
theorem round64_nonpos (q : ℚ) (hq : q ≤ 0) : (round64 q).le (.finite 0) = true := by
  have h := round64_nonneg (-q) (by linarith)
  rw [round64_neg] at h
  have h2 := le_neg_neg (round64 q) (.finite 0)
  simp only [Double.neg, neg_zero] at h2
  rw [← h2]
  exact h

/-- The comparison `<=` of doubles is transitive. -/
theorem le_trans_double (x y z : Double) (h1 : x.le y = true) (h2 : y.le z = true) :
    x.le z = true := by
  cases x <;> cases y <;> cases z <;> simp [Double.le] at h1 h2 ⊢
  exact le_trans h1 h2

/-- Rounding to the nearest double is monotone. -/
theorem round64_mono_all (q1 q2 : ℚ) (h : q1 ≤ q2) :
    (round64 q1).le (round64 q2) = true := by
  rcases le_or_lt 0 q1 with h0 | hneg
  · exact round64_mono q1 q2 h0 h
  · rcases le_or_lt q2 0 with h2 | h2
    · have hm := round64_mono (-q2) (-q1) (by linarith) (by linarith)
      rw [round64_neg, round64_neg, le_neg_neg] at hm
      exact hm
    · exact le_trans_double _ _ _ (round64_nonpos q1 hneg.le)
        (round64_nonneg q2 h2.le)

/-- The conversion `(int)x` is monotone. -/
theorem doubleToInt_mono (z1 z2 : ℚ) (h : z1 ≤ z2) : doubleToInt z1 ≤ doubleToInt z2 := by
  have key : ∀ z : ℚ, z < 0 → doubleToInt z = -⌊-z⌋ := by
    intro z hz
    have h1 := doubleToInt_neg (-z)
    rw [neg_neg] at h1
    rw [h1, doubleToInt_of_nonneg (by linarith)]
  rcases le_or_lt 0 z1 with h1 | h1
  · rw [doubleToInt_of_nonneg h1, doubleToInt_of_nonneg (le_trans h1 h)]
    exact Int.floor_mono h
  · rcases le_or_lt 0 z2 with h2 | h2
    · rw [key z1 h1, doubleToInt_of_nonneg h2]
      have f1 : 0 ≤ ⌊-z1⌋ := Int.floor_nonneg.mpr (by linarith)
      have f2 : 0 ≤ ⌊z2⌋ := Int.floor_nonneg.mpr h2
      omega
    · rw [key z1 h1, key z2 h2]
      have : ⌊-z2⌋ ≤ ⌊-z1⌋ := Int.floor_mono (by linarith)
      omega

/-- A double that is not NaN is at most `+inf`. -/
theorem le_posInf_of_le (x y : Double) (h : x.le y = true) : x.le .posInf = true := by
  cases x <;> cases y <;> simp [Double.le] at h ⊢

/-- The result of rounding is compared with itself. -/
theorem round64_le_self (q : ℚ) : (round64 q).le (round64 q) = true :=
  round64_mono_all q q (le_refl q)

/-- A double between two finite doubles is finite. -/
theorem finite_of_between (e : Double) (a b : ℚ) (h1 : (Double.finite a).le e = true)
    (h2 : e.le (.finite b) = true) : ∃ x, e = .finite x ∧ a ≤ x ∧ x ≤ b := by
  cases e with
  | finite x =>
    refine ⟨x, rfl, ?_, ?_⟩
    · simpa [Double.le] using h1
    · simpa [Double.le] using h2
  | posInf => simp [Double.le] at h2
  | negInf => simp [Double.le] at h1
  | nan => simp [Double.le] at h1

/-- A difference of at least 1 rounds to a double of at least 1. -/
theorem rounded_width_ge_one (w d : ℚ) (hd : round64 w = .finite d) (h1 : 1 ≤ w) :
    1 ≤ d := by
  have hm := round64_mono_all 1 w h1
  have hone : round64 1 = .finite 1 := by
    have := round64_natCast 1 (by norm_num)
    simpa using this
  rw [hone, hd] at hm
  simpa [Double.le] using hm

/-- The floor of a rounded non-negative difference below 2^31 exceeds the floor of the
exact difference by at most one. -/
theorem floor_rounded_width_le (w d : ℚ) (hd : round64 w = .finite d) (h0 : 0 ≤ w)
    (hd31 : d < 2147483648) : ⌊d⌋ ≤ ⌊w⌋ + 1 := by
  have hw31 : w < 2147483648 := by
    by_contra hge
    have hm := round64_mono_all 2147483648 w (not_lt.mp hge)
    have hbig : round64 2147483648 = .finite 2147483648 := by
      have := round64_natCast 2147483648 (by norm_num)
      simpa using this
    rw [hbig, hd] at hm
    have : (2147483648 : ℚ) ≤ d := by simpa [Double.le] using hm
    linarith
  have hfl0 : 0 ≤ ⌊w⌋ := Int.floor_nonneg.mpr h0
  have hfl31 : ⌊w⌋ < 2147483648 := by
    rw [Int.floor_lt]
    exact_mod_cast hw31
  obtain ⟨n, hn⟩ : ∃ n : Nat, (n : Int) = ⌊w⌋ + 1 := ⟨(⌊w⌋ + 1).toNat, by omega⟩
  have hwn : w ≤ (n : ℚ) := by
    have h1 : w < (⌊w⌋ : ℚ) + 1 := Int.lt_floor_add_one w
    have h2 : ((n : Int) : ℚ) = (⌊w⌋ : ℚ) + 1 := by
      rw [hn]
      push_cast
      rfl
    have h3 : ((n : Int) : ℚ) = (n : ℚ) := by norm_cast
    linarith
  have hm := round64_mono_all w (n : ℚ) hwn
  rw [hd, round64_natCast n (by omega)] at hm
  have hdn : d ≤ (n : ℚ) := by simpa [Double.le] using hm
  have : ⌊d⌋ ≤ (n : Int) := by
    have := Int.floor_mono hdn
    rwa [Int.floor_natCast] at this
  omega

namespace Machine

namespace Histogram

/-- In a valid state with finite bounds and an `int` bucket count, the index computed
by `add` is monotone in the value wherever the index of the larger value passes
`assert(bucketIndex >= 0)`. -/
theorem machine_index_monotone (h : Histogram) (hv : h.Valid)
    (hbc : h.bucketCount ≤ 2147483647) (a b x y : ℚ) (hmin : h.min = .finite a)
    (hmax : h.max = .finite b) (hax : a ≤ x) (hxy : x ≤ y)
    (hy : 0 ≤ h.bucketIndex (.finite y)) :
    h.bucketIndex (.finite x) ≤ h.bucketIndex (.finite y) := by
  by_cases hx : 0 ≤ h.bucketIndex (.finite x)
  swap
  · omega
  unfold bucketIndex at hx hy ⊢
  by_cases hr : h.range.le (.finite 0) = true
  · rw [if_pos hr, if_pos hr]
  simp only [if_neg hr] at hx hy ⊢
  obtain ⟨k, hk⟩ : ∃ k : Nat, (k : Int) = h.bucketCount := ⟨h.bucketCount.toNat, by
    have := hv.1
    omega⟩
  have hkpos : (0 : ℚ) < (k : ℚ) := by
    have : (0 : Int) < (k : Int) := hk ▸ hv.1
    exact_mod_cast this
  have hK : Double.ofInt h.bucketCount = .finite (k : ℚ) := by
    rw [← hk]
    exact ofInt_natCast k (by omega)
  have hrange : h.range = (Double.finite b).sub (.finite a) := by
    rw [hv.2.2.1, hmin, hmax]
  have hrge : ((Double.finite b).sub (.finite a)).ge (.finite 0) = true := by
    rw [← hrange]
    exact hv.2.2.2.1
  rw [hrange] at hr
  rw [hK, hmin, hmax] at hx hy ⊢
  -- the offsets
  have hsx : (Double.finite x).sub (.finite a) = round64 (x - a) := by
    simp only [Double.sub, Double.neg, Double.add, sub_eq_add_neg]
  have hsy : (Double.finite y).sub (.finite a) = round64 (y - a) := by
    simp only [Double.sub, Double.neg, Double.add, sub_eq_add_neg]
  rw [hsx] at hx ⊢
  rw [hsy] at hy ⊢
  have hs := round64_mono (x - a) (y - a) (by linarith) (by linarith)
  have hs0 := round64_nonneg (x - a) (by linarith)
  -- the products
  have hp : ((Double.finite (k : ℚ)).mul (round64 (x - a))).le
      ((Double.finite (k : ℚ)).mul (round64 (y - a))) = true := by
    cases hfx : round64 (x - a) with
    | finite sx =>
      cases hfy : round64 (y - a) with
      | finite sy =>
        rw [hfx, hfy] at hs
        have hle : sx ≤ sy := by simpa [Double.le] using hs
        simp only [Double.mul]
        exact round64_mono_all _ _ (mul_le_mul_of_nonneg_left hle hkpos.le)
      | posInf =>
        simp only [Double.mul, if_neg hkpos.ne', if_pos hkpos]
        exact le_posInf_of_le _ _ (round64_le_self _)
      | negInf =>
        rw [hfx, hfy] at hs
        simp [Double.le] at hs
      | nan =>
        rw [hfx, hfy] at hs
        simp [Double.le] at hs
    | posInf =>
      cases hfy : round64 (y - a) with
      | finite sy =>
        rw [hfx, hfy] at hs
        simp [Double.le] at hs
      | posInf =>
        simp [Double.mul, hkpos.ne', hkpos, Double.le]
      | negInf =>
        rw [hfx, hfy] at hs
        simp [Double.le] at hs
      | nan =>
        rw [hfx, hfy] at hs
        simp [Double.le] at hs
    | negInf =>
      rw [hfx] at hs0
      simp [Double.ge, Double.le] at hs0
    | nan =>
      rw [hfx] at hs0
      simp [Double.ge, Double.le] at hs0
  -- the quotients
  generalize (Double.finite (k : ℚ)).mul (round64 (x - a)) = px at hx hp ⊢
  generalize (Double.finite (k : ℚ)).mul (round64 (y - a)) = py at hy hp ⊢
  generalize (Double.finite b).sub (.finite a) = D at hx hy hr hrge ⊢
  cases D with
  | finite d =>
    have hd0 : 0 ≤ d := by simpa [Double.ge, Double.le] using hrge
    have hdne : d ≠ 0 := by
      intro hz
      apply hr
      rw [hz]
      simp [Double.le]
    have hdpos : 0 < d := lt_of_le_of_ne hd0 (Ne.symm hdne)
    cases px with
    | finite p1 =>
      cases py with
      | finite p2 =>
        have hle : p1 ≤ p2 := by simpa [Double.le] using hp
        simp only [Double.div, if_neg hdne] at hx hy ⊢
        have hq := round64_mono_all (p1 / d) (p2 / d)
          (div_le_div_of_nonneg_right hle hd0)
        cases hq1 : round64 (p1 / d) with
        | finite z1 =>
          cases hq2 : round64 (p2 / d) with
          | finite z2 =>
            rw [hq1, hq2] at hq
            rw [hq1] at hx
            rw [hq2] at hy
            have hz : z1 ≤ z2 := by simpa [Double.le] using hq
            simp only [Double.toInt32] at hx hy ⊢
            by_cases c1 : -2147483649 < z1 ∧ z1 < 2147483648
            · by_cases c2 : -2147483649 < z2 ∧ z2 < 2147483648
              · rw [if_pos c1, if_pos c2]
                exact doubleToInt_mono z1 z2 hz
              · rw [if_neg c2] at hy
                omega
            · rw [if_neg c1] at hx
              omega
          | posInf =>
            rw [hq2] at hy
            simp [Double.toInt32] at hy
          | negInf =>
            rw [hq2] at hy
            simp [Double.toInt32] at hy
          | nan =>
            rw [hq2] at hy
            simp [Double.toInt32] at hy
        | posInf =>
          rw [hq1] at hx
          simp [Double.toInt32] at hx
        | negInf =>
          rw [hq1] at hx
          simp [Double.toInt32] at hx
        | nan =>
          rw [hq1] at hx
          simp [Double.toInt32] at hx
      | posInf =>
        simp [Double.div, hd0, Double.toInt32] at hy
      | negInf =>
        simp [Double.le] at hp
      | nan =>
        simp [Double.le] at hp
    | posInf =>
      simp [Double.div, hd0, Double.toInt32] at hx
    | negInf =>
      simp [Double.div, hd0, Double.toInt32] at hx
    | nan =>
      simp [Double.div, Double.toInt32] at hx
  | posInf =>
    cases px with
    | finite p1 =>
      cases py with
      | finite p2 => simp [Double.div]
      | posInf => simp [Double.div, Double.toInt32] at hy
      | negInf => simp [Double.div, Double.toInt32] at hy
      | nan => simp [Double.div, Double.toInt32] at hy
    | posInf => simp [Double.div, Double.toInt32] at hx
    | negInf => simp [Double.div, Double.toInt32] at hx
    | nan => simp [Double.div, Double.toInt32] at hx
  | negInf => simp [Double.ge, Double.le] at hrge
  | nan => simp [Double.ge, Double.le] at hrge

end Histogram

end Machine

namespace Machine

namespace DoubleColumn

/-- State of the column after the first `n` iterations of the loop in `fillRandom`,
when the modulus is not zero: elements below `n` hold the rounded sums, the others are
untouched. -/
theorem machine_fill_loop (mn mx : Double) (c : DoubleColumn)
    (hk : (mx.sub mn).toInt32 ≠ 0) (n : Nat) (hn : n ≤ c.data.length) :
    ∃ c', forLoop n (fillRandomStep mn mx) c = .ok c' ∧ c'.size = c.size ∧
      c'.data.length = c.data.length ∧
      (∀ i, i < n →
        c'.data[i]? = some (mn.add (Double.ofInt ((i : Int).tmod (mx.sub mn).toInt32)))) ∧
      (∀ i, n ≤ i → c'.data[i]? = c.data[i]?) := by
  induction n with
  | zero => exact ⟨c, forLoop_zero _ c, rfl, rfl, fun i hi => absurd hi (Nat.not_lt_zero i),
      fun i _ => rfl⟩
  | succ n ih =>
    obtain ⟨c1, hrun, hsize, hlen, hlow, hhigh⟩ := ih (Nat.le_of_succ_le hn)
    have hn1 : n < c1.data.length := by omega
    refine ⟨⟨c1.size,
      c1.data.set n (mn.add (Double.ofInt ((n : Int).tmod (mx.sub mn).toInt32)))⟩,
      ?_, hsize, ?_, ?_, ?_⟩
    · rw [forLoop_succ, hrun]
      show fillRandomStep mn mx n c1 = _
      unfold fillRandomStep
      rw [if_neg hk, if_pos hn1]
    · simp [hlen]
    · intro i hi
      rcases Nat.lt_succ_iff_lt_or_eq.mp hi with hlt | rfl
      · simp only [List.getElem?_set, if_neg (Nat.ne_of_gt hlt)]
        exact hlow i hlt
      · simp [List.getElem?_set, hn1]
    · intro i hi
      have hne : n ≠ i := by omega
      simp only [List.getElem?_set, if_neg hne]
      exact hhigh i (by omega)

/-- Effect of `fillRandom` on a valid column when the modulus is not zero. -/
theorem machine_fill_effect (c : DoubleColumn) (hc : c.Valid) (mn mx : Double)
    (hk : (mx.sub mn).toInt32 ≠ 0) :
    ∃ c', c.fillRandom mn mx = .ok c' ∧ c'.size = c.size ∧
      (c'.data.length : Int) = c.size ∧
      ∀ i : Nat, (i : Int) < c.size →
        c'.data[i]? = some (mn.add (Double.ofInt ((i : Int).tmod (mx.sub mn).toInt32))) := by
  have hlen : c.size.toNat ≤ c.data.length := by
    have := hc.2.2
    omega
  obtain ⟨c', hrun, hsize, hl, hlow, -⟩ := machine_fill_loop mn mx c hk c.size.toNat hlen
  refine ⟨c', hrun, hsize, by rw [hl]; exact hc.2.2, ?_⟩
  intro i hi
  exact hlow i (by omega)

/-- With a zero modulus `fillRandom` aborts in its first iteration. -/
theorem machine_fill_zero (c : DoubleColumn) (hc : c.Valid) (mn mx : Double)
    (hk : (mx.sub mn).toInt32 = 0) : c.fillRandom mn mx = .error .modByZero := by
  unfold fillRandom
  obtain ⟨n, hn⟩ : ∃ n, c.size.toNat = n + 1 := ⟨c.size.toNat - 1, by have := hc.1; omega⟩
  rw [hn]
  apply forLoop_error
  intro i t
  unfold fillRandomStep
  rw [if_pos hk]

/-- The conversion to `int` gives 0 exactly on the finite doubles strictly between -1
and 1. -/
theorem toInt32_eq_zero_iff (x : Double) :
    x.toInt32 = 0 ↔ ∃ d, x = .finite d ∧ -1 < d ∧ d < 1 := by
  cases x with
  | finite d =>
    show (if -2147483649 < d ∧ d < 2147483648 then doubleToInt d else -2147483648) = 0 ↔ _
    constructor
    · intro h
      by_cases hr : -2147483649 < d ∧ d < 2147483648
      · rw [if_pos hr] at h
        exact ⟨d, rfl, (doubleToInt_eq_zero_iff d).mp h⟩
      · rw [if_neg hr] at h
        exact absurd h (by decide)
    · rintro ⟨d', he, h1, h2⟩
      cases he
      rw [if_pos ⟨by linarith, by linarith⟩]
      exact (doubleToInt_eq_zero_iff d).mpr ⟨h1, h2⟩
  | posInf =>
    constructor
    · intro h
      exact absurd h (by decide)
    · rintro ⟨d, he, _⟩
      cases he
  | negInf =>
    constructor
    · intro h
      exact absurd h (by decide)
    · rintro ⟨d, he, _⟩
      cases he
  | nan =>
    constructor
    · intro h
      exact absurd h (by decide)
    · rintro ⟨d, he, _⟩
      cases he

/-! ### Claims on `fillRandom` -/

/-- C20, the claim as stated fails.  For the doubles `min = 0.2` and `max = 1.2` the
exact difference lies strictly between -1 and 1 and truncates to 0, but the double
subtraction rounds it to `1.0`: the modulus is 1 and `fillRandom` completes, writing
`min` into every element of a column of length 3. -/
theorem fillRandom_completes_on_rounded_width :
    round64 (3602879701896397 / 18014398509481984) =
        .finite (3602879701896397 / 18014398509481984) ∧
      round64 (5404319552844595 / 4503599627370496) =
        .finite (5404319552844595 / 4503599627370496) ∧
      (-1 : ℚ) < 5404319552844595 / 4503599627370496 - 3602879701896397 / 18014398509481984 ∧
      (5404319552844595 / 4503599627370496 - 3602879701896397 / 18014398509481984 : ℚ) < 1 ∧
      doubleToInt
        (5404319552844595 / 4503599627370496 - 3602879701896397 / 18014398509481984) = 0 ∧
      (Double.finite (5404319552844595 / 4503599627370496)).sub
        (.finite (3602879701896397 / 18014398509481984)) = .finite 1 ∧
      sample3.Valid ∧
      sample3.fillRandom (.finite (3602879701896397 / 18014398509481984))
          (.finite (5404319552844595 / 4503599627370496)) =
        .ok ⟨3, [.finite (3602879701896397 / 18014398509481984),
          .finite (3602879701896397 / 18014398509481984),
          .finite (3602879701896397 / 18014398509481984)]⟩ := by
  decide!

/-- C20, amended.  On a valid column (positive length) `fillRandom(min, max)` fails with
an integer modulus by zero exactly when the conversion to `int` of the difference
`max - min` computed in double arithmetic is 0, that is when this rounded difference is
a finite `d` with `-1 < d < 1`; for every other pair whose rounded difference fits in an
`int` it completes and writes all `size` elements. -/
theorem fillRandom_aborts_iff_rounded_width (c : DoubleColumn) (hc : c.Valid)
    (mn mx : Double) :
    (c.fillRandom mn mx = .error .modByZero ↔ (mx.sub mn).toInt32 = 0) ∧
    ((mx.sub mn).toInt32 = 0 ↔ ∃ d, mx.sub mn = .finite d ∧ -1 < d ∧ d < 1) ∧
    (∀ d, mx.sub mn = .finite d → -2147483649 < d → d < 2147483648 →
      ¬ (-1 < d ∧ d < 1) →
      ∃ c', c.fillRandom mn mx = .ok c' ∧ c'.size = c.size ∧
        (c'.data.length : Int) = c.size ∧
        ∀ i : Nat, (i : Int) < c.size →
          c'.data[i]? = some (mn.add (Double.ofInt ((i : Int).tmod (doubleToInt d))))) := by
  refine ⟨?_, toInt32_eq_zero_iff _, ?_⟩
  · constructor
    · intro herr
      by_contra hk
      obtain ⟨c', hrun, -⟩ := machine_fill_effect c hc mn mx hk
      rw [hrun] at herr
      cases herr
    · exact machine_fill_zero c hc mn mx
  · intro d hd h1 h2 hnot
    have hto : (mx.sub mn).toInt32 = doubleToInt d := by
      rw [hd]
      show (if -2147483649 < d ∧ d < 2147483648 then doubleToInt d else -2147483648) = _
      rw [if_pos ⟨h1, h2⟩]
    have hk : (mx.sub mn).toInt32 ≠ 0 := by
      intro h0
      obtain ⟨d', he, hd1, hd2⟩ := (toInt32_eq_zero_iff _).mp h0
      rw [hd] at he
      cases he
      exact hnot ⟨hd1, hd2⟩
    obtain ⟨c', hrun, hsize, hlen, hel⟩ := machine_fill_effect c hc mn mx hk
    refine ⟨c', hrun, hsize, hlen, ?_⟩
    intro i hi
    rw [← hto]
    exact hel i hi

/-- C20 amended, instantiated on a column of length 3 and `fillRandom(0, 0)`. -/
theorem fillRandom_aborts_iff_rounded_width_witness :
    sample3.Valid ∧
    (sample3.fillRandom (.finite 0) (.finite 0) = .error .modByZero ↔
      ((Double.finite 0).sub (.finite 0)).toInt32 = 0) ∧
    (((Double.finite 0).sub (.finite 0)).toInt32 = 0 ↔
      ∃ d, (Double.finite 0).sub (.finite 0) = .finite d ∧ -1 < d ∧ d < 1) ∧
    (∀ d, (Double.finite 0).sub (.finite 0) = .finite d → -2147483649 < d →
      d < 2147483648 → ¬ (-1 < d ∧ d < 1) →
      ∃ c', sample3.fillRandom (.finite 0) (.finite 0) = .ok c' ∧ c'.size = sample3.size ∧
        (c'.data.length : Int) = sample3.size ∧
        ∀ i : Nat, (i : Int) < sample3.size →
          c'.data[i]? =
            some ((Double.finite 0).add (Double.ofInt ((i : Int).tmod (doubleToInt d))))) :=
  ⟨by decide!, fillRandom_aborts_iff_rounded_width sample3 (by decide!) (.finite 0) (.finite 0)⟩

/-- C9, the claim as stated fails.  For the doubles `min = 0.4` and `max = 2.4` the
exact difference is at least 1 and its floor is 1, so every element should equal
`min`; but the double subtraction rounds the difference to `2.0`, the modulus is 2 and
element 1 of a column of length 3 is `1.4`.  For `min = 2^53 + 2` and
`max = 2^53 + 4` the sum `min + 1` rounds to `max`: element 1 equals `max` and is not
in `[min, max)`. -/
theorem fillRandom_ramp_differs_by_rounding :
    round64 (3602879701896397 / 9007199254740992) =
        .finite (3602879701896397 / 9007199254740992) ∧
      round64 (5404319552844595 / 2251799813685248) =
        .finite (5404319552844595 / 2251799813685248) ∧
      (1 : ℚ) ≤ 5404319552844595 / 2251799813685248 - 3602879701896397 / 9007199254740992 ∧
      ⌊(5404319552844595 / 2251799813685248 - 3602879701896397 / 9007199254740992 : ℚ)⌋ = 1 ∧
      sample3.fillRandom (.finite (3602879701896397 / 9007199254740992))
          (.finite (5404319552844595 / 2251799813685248)) =
        .ok ⟨3, [.finite (3602879701896397 / 9007199254740992),
          .finite (3152519739159347 / 2251799813685248),
          .finite (3602879701896397 / 9007199254740992)]⟩ ∧
      (3152519739159347 / 2251799813685248 : ℚ) ≠
        3602879701896397 / 9007199254740992 + (((1 : Int) % 1 : Int) : ℚ) ∧
      round64 9007199254740994 = .finite 9007199254740994 ∧
      round64 9007199254740996 = .finite 9007199254740996 ∧
      sample3.fillRandom (.finite 9007199254740994) (.finite 9007199254740996) =
        .ok ⟨3, [.finite 9007199254740994, .finite 9007199254740996,
          .finite 9007199254740994]⟩ := by
  decide!

/-- C9, amended.  On a valid column, for finite `min`, `max` whose difference computed
in double arithmetic is a value `d` with `1 <= d < 2^31`, `fillRandom(min, max)`
completes and element `i` equals the double nearest to `min + (i mod floor(d))` for
every index `0 <= i < size`.  When `min <= max` are doubles, every element lies in
`[min, max]` (it can reach `max`).  When moreover `d` is the exact difference and the
sums `min + r`, `0 <= r < floor(d)`, are doubles, element `i` equals
`min + (i mod floor(max - min))` and lies in `[min, max)`. -/
theorem fillRandom_ramp_rounded (c : DoubleColumn) (hc : c.Valid) (a b d : ℚ)
    (hd : (Double.finite b).sub (.finite a) = .finite d) (h1 : 1 ≤ d)
    (h2 : d < 2147483648) :
    ∃ c', c.fillRandom (.finite a) (.finite b) = .ok c' ∧ c'.size = c.size ∧
      (c'.data.length : Int) = c.size ∧
      (∀ i : Nat, (i : Int) < c.size →
        c'.data[i]? = some (round64 (a + (((i : Int) % ⌊d⌋ : Int) : ℚ)))) ∧
      (round64 a = .finite a → round64 b = .finite b → a ≤ b →
        ∀ i : Nat, (i : Int) < c.size →
          ∃ x, c'.data[i]? = some (.finite x) ∧ a ≤ x ∧ x ≤ b) ∧
      (d = b - a →
        (∀ r : Nat, (r : Int) < ⌊d⌋ → round64 (a + (r : ℚ)) = .finite (a + (r : ℚ))) →
        ∀ i : Nat, (i : Int) < c.size →
          ∃ x, c'.data[i]? = some (.finite x) ∧
            x = a + (((i : Int) % ⌊b - a⌋ : Int) : ℚ) ∧ a ≤ x ∧ x < b) := by
  have hfl : doubleToInt d = ⌊d⌋ := doubleToInt_of_nonneg (by linarith)
  have hpos : 0 < ⌊d⌋ := by
    have : (1 : Int) ≤ ⌊d⌋ := Int.le_floor.mpr (by simpa using h1)
    omega
  have hlt31 : ⌊d⌋ < 2147483648 := by
    rw [Int.floor_lt]
    exact_mod_cast h2
  have hto : ((Double.finite b).sub (.finite a)).toInt32 = ⌊d⌋ := by
    rw [hd]
    show (if -2147483649 < d ∧ d < 2147483648 then doubleToInt d else -2147483648) = _
    rw [if_pos ⟨by linarith, h2⟩, hfl]
  obtain ⟨c', hrun, hsize, hlen, hel⟩ :=
    machine_fill_effect c hc (.finite a) (.finite b) (by rw [hto]; exact hpos.ne')
  have helem : ∀ i : Nat, (i : Int) < c.size →
      c'.data[i]? = some (round64 (a + (((i : Int) % ⌊d⌋ : Int) : ℚ))) := by
    intro i hi
    rw [hel i hi, hto, Int.tmod_eq_emod (Int.ofNat_nonneg i) hpos.le]
    have hr0 : 0 ≤ (i : Int) % ⌊d⌋ := Int.emod_nonneg _ hpos.ne'
    have hrlt : (i : Int) % ⌊d⌋ < ⌊d⌋ := Int.emod_lt_of_pos _ hpos
    obtain ⟨r, hr⟩ : ∃ r : Nat, (r : Int) = (i : Int) % ⌊d⌋ :=
      ⟨((i : Int) % ⌊d⌋).toNat, by omega⟩
    rw [← hr, ofInt_natCast r (by omega)]
    simp only [Double.add, Int.cast_natCast]
  refine ⟨c', hrun, hsize, hlen, helem, ?_, ?_⟩
  · intro hda hdb hab i hi
    have hr0 : 0 ≤ (i : Int) % ⌊d⌋ := Int.emod_nonneg _ hpos.ne'
    have hrlt : (i : Int) % ⌊d⌋ < ⌊d⌋ := Int.emod_lt_of_pos _ hpos
    have hdw : round64 (b - a) = .finite d := by
      rw [← hd]
      simp only [Double.sub, Double.neg, Double.add, sub_eq_add_neg]
    have hfloor := floor_rounded_width_le (b - a) d hdw (by linarith) h2
    have hrq0 : (0 : ℚ) ≤ (((i : Int) % ⌊d⌋ : Int) : ℚ) := by exact_mod_cast hr0
    have hrle : (((i : Int) % ⌊d⌋ : Int) : ℚ) ≤ b - a := by
      have h3 : (i : Int) % ⌊d⌋ ≤ ⌊b - a⌋ := by omega
      have h4 : (((i : Int) % ⌊d⌋ : Int) : ℚ) ≤ ((⌊b - a⌋ : Int) : ℚ) := by exact_mod_cast h3
      exact le_trans h4 (Int.floor_le _)
    have hlo := round64_mono_all a (a + (((i : Int) % ⌊d⌋ : Int) : ℚ)) (by linarith)
    have hhi := round64_mono_all (a + (((i : Int) % ⌊d⌋ : Int) : ℚ)) b (by linarith)
    rw [hda] at hlo
    rw [hdb] at hhi
    obtain ⟨x, hx, hax, hxb⟩ := finite_of_between _ a b hlo hhi
    exact ⟨x, by rw [helem i hi, hx], hax, hxb⟩
  · intro hexact hsum i hi
    have hr0 : 0 ≤ (i : Int) % ⌊d⌋ := Int.emod_nonneg _ hpos.ne'
    have hrlt : (i : Int) % ⌊d⌋ < ⌊d⌋ := Int.emod_lt_of_pos _ hpos
    obtain ⟨r, hr⟩ : ∃ r : Nat, (r : Int) = (i : Int) % ⌊d⌋ :=
      ⟨((i : Int) % ⌊d⌋).toNat, by omega⟩
    have hrq : (((i : Int) % ⌊d⌋ : Int) : ℚ) = (r : ℚ) := by
      rw [← hr]
      norm_cast
    refine ⟨a + (((i : Int) % ⌊d⌋ : Int) : ℚ), ?_, by rw [hexact], ?_, ?_⟩
    · rw [helem i hi, hrq]
      exact congrArg some (hsum r (by omega))
    · have : (0 : ℚ) ≤ (((i : Int) % ⌊d⌋ : Int) : ℚ) := by exact_mod_cast hr0
      linarith
    · have h3 : (i : Int) % ⌊d⌋ + 1 ≤ ⌊d⌋ := hrlt
      have h4 : ((((i : Int) % ⌊d⌋ : Int)) : ℚ) + 1 ≤ ((⌊d⌋ : Int) : ℚ) := mod_cast h3
      have h5 : ((⌊d⌋ : Int) : ℚ) ≤ d := Int.floor_le d
      rw [hexact] at h5 h4
      rw [hexact]
      linarith

/-- C9 amended, instantiated on a column of length 3 and `fillRandom(0, 2)`. -/
theorem fillRandom_ramp_rounded_witness :
    sample3.Valid ∧ (Double.finite 2).sub (.finite 0) = .finite 2 ∧ (1 : ℚ) ≤ 2 ∧
    (2 : ℚ) < 2147483648 ∧
    ∃ c', sample3.fillRandom (.finite 0) (.finite 2) = .ok c' ∧ c'.size = sample3.size ∧
      (c'.data.length : Int) = sample3.size ∧
      (∀ i : Nat, (i : Int) < sample3.size →
        c'.data[i]? = some (round64 (0 + (((i : Int) % ⌊(2 : ℚ)⌋ : Int) : ℚ)))) ∧
      (round64 0 = .finite 0 → round64 2 = .finite 2 → (0 : ℚ) ≤ 2 →
        ∀ i : Nat, (i : Int) < sample3.size →
          ∃ x, c'.data[i]? = some (.finite x) ∧ 0 ≤ x ∧ x ≤ 2) ∧
      ((2 : ℚ) = 2 - 0 →
        (∀ r : Nat, (r : Int) < ⌊(2 : ℚ)⌋ →
          round64 (0 + (r : ℚ)) = .finite (0 + (r : ℚ))) →
        ∀ i : Nat, (i : Int) < sample3.size →
          ∃ x, c'.data[i]? = some (.finite x) ∧
            x = 0 + (((i : Int) % ⌊(2 : ℚ) - 0⌋ : Int) : ℚ) ∧ 0 ≤ x ∧ x < 2) :=
  ⟨by decide!, by decide!, by decide!, by decide!,
    fillRandom_ramp_rounded sample3 (by decide!) 0 2 2 (by decide!) (by decide!)
      (by decide!)⟩

end DoubleColumn

namespace Histogram

end Histogram

namespace DoubleColumn

end DoubleColumn

end Machine

/-! ### Agreement of the two layers on the inputs of the exact layer -/

/-- In the configuration of `main` the machine layer computes, for every value
`0..99` of the filled column, the index that the exact layer computes: no operation
rounds on these inputs. -/
theorem layers_agree_on_main_values :
    Machine.Histogram.new 40 (.finite 0) (.finite 100) = .ok Machine.Histogram.fresh40 ∧
      ∀ r : Fin 100,
        (Histogram.new 40 0 100).bind (fun h => h.bucketIndex ((r : Nat) : ℚ)) =
          .ok (Machine.Histogram.fresh40.bucketIndex (.finite ((r : Nat) : ℚ))) := by
  decide!

/-- On `Histogram(4, 0, 100)` and `Histogram(40, 0, 100)` the machine layer aborts on
`add(100)` with the same assertion as the exact layer. -/
theorem layers_agree_on_add_max :
    Machine.Histogram.fresh4.add (.finite 100) = .error .assertIndexLtCount ∧
      Machine.Histogram.fresh40.add (.finite 100) = .error .assertIndexLtCount ∧
      (Histogram.new 4 0 100).bind (fun h => h.add 100) = .error .assertIndexLtCount ∧
      (Histogram.new 40 0 100).bind (fun h => h.add 100) = .error .assertIndexLtCount := by
  decide!

end Hillview
